import Mathlib

/-!
Shallow embedding of the vnrs backtesting engine
(`src/vnrs_ctastrategy/backtesting.rs`, `src/vnrs_ctastrategy/base.rs`,
`src/vnrs/trader/{object,constant,utility}.rs`) and proofs about it.

Modelling conventions:
* `f64` prices and volumes are embedded as `ℚ` (the engine performs only
  field arithmetic, `min`/`max` and comparisons on them).
* The Rust `HashMap<String, Rc<RefCell<T>>>` containers are embedded as
  association lists.  The stringified ids `"BACKTESTING.<n>"` (limit
  orders, trades) and `"STOP.<n>"` (stop orders) are keyed by the counter
  `n : ℕ` itself; limit orders and stop orders live in separate maps in
  the source, so no information is lost.  Iteration order is insertion
  order (the source iterates a snapshot of `values()`).
* The shared `Rc<RefCell<_>>` cells mean a mutation through the active
  map is visible in the history map; the embedding updates both maps.
* Strategy callbacks (`on_order`, `on_trade`, `on_stop_order`, `on_bar`)
  are recorded in an event list `callbacks`; the strategy body itself is
  not executed (its possible engine calls are modelled as explicit
  commands, see `Cmd`).
-/

namespace Vnrs

/-- `Direction` from `constant.rs`. -/
inductive Direction where
  | NONE
  | LONG
  | SHORT
  | NET
deriving DecidableEq, Repr

/-- `Offset` from `constant.rs`. -/
inductive Offset where
  | NONE
  | OPEN
  | CLOSE
  | CLOSETODAY
  | CLOSEYESTERDAY
deriving DecidableEq, Repr

/-- `Status` from `constant.rs`. -/
inductive Status where
  | SUBMITTING
  | NOTTRADED
  | PARTTRADED
  | ALLTRADED
  | CANCELLED
  | REJECTED
deriving DecidableEq, Repr

/-- `StopOrderStatus` from `base.rs`. -/
inductive StopOrderStatus where
  | WAITING
  | CANCELLED
  | TRIGGERED
deriving DecidableEq, Repr

/-- `BacktestingMode` from `base.rs`. -/
inductive BacktestingMode where
  | BAR
  | TICK
deriving DecidableEq, Repr

/-- `Interval` from `constant.rs`. -/
inductive Interval where
  | NONE
  | MINUTE
  | HOUR
  | DAILY
  | WEEKLY
  | TICK
deriving DecidableEq, Repr

/-- `Exchange` from `constant.rs` (all variants of the strum enum). -/
inductive Exchange where
  | CFFEX | SHFE | CZCE | DCE | INE | GFEX | SSE | SZSE | BSE | SHHK
  | SZHK | SGE | WXE | CFETS | XBOND
  | SMART | NYSE | NASDAQ | ARCA | EDGEA | ISLAND | BATS | IEX | AMEX
  | TSE | NYMEX | COMEX | GLOBEX | IDEALPRO | CME | ICE | SEHK | HKFE
  | SGX | CBOT | CBOE | CFE | DME | EUREX | APEX | LME | BMD | TOCOM
  | EUNX | KRX | OTC | IBKRATS | OKX
  | LOCAL
deriving DecidableEq, Repr

/-- `Exchange::from_str` (derived by strum's `EnumString`: exact variant
name match, anything else is an error, which the callers `unwrap`). -/
def Exchange.fromStr (s : String) : Option Exchange :=
  match s with
  | "CFFEX" => some .CFFEX | "SHFE" => some .SHFE | "CZCE" => some .CZCE
  | "DCE" => some .DCE | "INE" => some .INE | "GFEX" => some .GFEX
  | "SSE" => some .SSE | "SZSE" => some .SZSE | "BSE" => some .BSE
  | "SHHK" => some .SHHK | "SZHK" => some .SZHK | "SGE" => some .SGE
  | "WXE" => some .WXE | "CFETS" => some .CFETS | "XBOND" => some .XBOND
  | "SMART" => some .SMART | "NYSE" => some .NYSE | "NASDAQ" => some .NASDAQ
  | "ARCA" => some .ARCA | "EDGEA" => some .EDGEA | "ISLAND" => some .ISLAND
  | "BATS" => some .BATS | "IEX" => some .IEX | "AMEX" => some .AMEX
  | "TSE" => some .TSE | "NYMEX" => some .NYMEX | "COMEX" => some .COMEX
  | "GLOBEX" => some .GLOBEX | "IDEALPRO" => some .IDEALPRO | "CME" => some .CME
  | "ICE" => some .ICE | "SEHK" => some .SEHK | "HKFE" => some .HKFE
  | "SGX" => some .SGX | "CBOT" => some .CBOT | "CBOE" => some .CBOE
  | "CFE" => some .CFE | "DME" => some .DME | "EUREX" => some .EUREX
  | "APEX" => some .APEX | "LME" => some .LME | "BMD" => some .BMD
  | "TOCOM" => some .TOCOM | "EUNX" => some .EUNX | "KRX" => some .KRX
  | "OTC" => some .OTC | "IBKRATS" => some .IBKRATS | "OKX" => some .OKX
  | "LOCAL" => some .LOCAL
  | _ => none

/-- A `chrono::NaiveDateTime`, abstracted as a calendar day plus a
time-of-day; `.date()` is the `day` projection. -/
structure DateTime where
  day : Int
  tod : Int
deriving DecidableEq, Repr

/-- `BarData` from `object.rs` (gateway_name is the constant
"BACKTESTING" in the engine and is dropped). -/
structure BarData where
  symbol : String
  exchange : Exchange
  datetime : DateTime
  interval : Interval
  volume : ℚ
  turnover : ℚ
  open_interest : ℚ
  open_price : ℚ
  high_price : ℚ
  low_price : ℚ
  close_price : ℚ
deriving DecidableEq, Repr

/-- `TickData` from `object.rs`, restricted to the fields the
backtesting engine reads (`last_price`, `bid_price_1`, `ask_price_1`). -/
structure TickData where
  symbol : String
  exchange : Exchange
  datetime : DateTime
  last_price : ℚ
  bid_price_1 : ℚ
  ask_price_1 : ℚ
deriving DecidableEq, Repr

/-- `MixData` from `object.rs`. -/
inductive MixData where
  | tick (t : TickData)
  | bar (b : BarData)
deriving DecidableEq, Repr

/-- `OrderData` from `object.rs`; `orderid` is the numeric counter that
the source stringifies (`vt_orderid = "BACKTESTING.<orderid>"`). -/
structure OrderData where
  symbol : String
  exchange : Exchange
  orderid : Nat
  direction : Direction
  offset : Offset
  price : ℚ
  volume : ℚ
  traded : ℚ
  status : Status
  datetime : DateTime
deriving DecidableEq, Repr

/-- `StopOrder` from `base.rs`; `stop_orderid` is the numeric counter
(the source formats it as `"STOP.<n>"`), and `vt_orderids` holds the
numeric ids of spawned limit orders. -/
structure StopOrder where
  vt_symbol : String
  direction : Direction
  offset : Offset
  price : ℚ
  volume : ℚ
  stop_orderid : Nat
  datetime : DateTime
  vt_orderids : List Nat
  status : StopOrderStatus
deriving DecidableEq, Repr

/-- `TradeData` from `object.rs`; `tradeid` is the numeric counter
(`vt_tradeid = "BACKTESTING.<tradeid>"`). -/
structure TradeData where
  symbol : String
  exchange : Exchange
  orderid : Nat
  tradeid : Nat
  direction : Direction
  offset : Offset
  price : ℚ
  volume : ℚ
  datetime : DateTime
deriving DecidableEq, Repr

/-- A strategy callback invocation crossing the engine/strategy boundary. -/
inductive Callback where
  | onOrder (o : OrderData)
  | onTrade (t : TradeData)
  | onStopOrder (s : StopOrder)
  | onBar (b : BarData)
deriving DecidableEq, Repr

/-! ### Association lists (the embedding of `HashMap`) -/

/-- Lookup in an association list (first matching key). -/
def alookup {κ α : Type} [DecidableEq κ] (k : κ) : List (κ × α) → Option α
  | [] => none
  | p :: rest => if p.1 = k then some p.2 else alookup k rest

/-- Overwrite the value stored at key `k` (no-op when absent); models an
in-place mutation through the shared `Rc<RefCell<_>>` cell. -/
def aupdate {κ α : Type} [DecidableEq κ] (k : κ) (v : α) (l : List (κ × α)) :
    List (κ × α) :=
  l.map fun p => if p.1 = k then (k, v) else p

/-- `HashMap::remove`. -/
def aremove {κ α : Type} [DecidableEq κ] (k : κ) (l : List (κ × α)) :
    List (κ × α) :=
  l.filter fun p => p.1 ≠ k

/-- `HashMap::contains_key`. -/
def acontains {κ α : Type} [DecidableEq κ] (k : κ) (l : List (κ × α)) : Bool :=
  l.any fun p => p.1 = k

/-- `HashMap::insert`: replace the stored value when the key is present,
otherwise append. -/
def ainsert {κ α : Type} [DecidableEq κ] (k : κ) (v : α) (l : List (κ × α)) :
    List (κ × α) :=
  if acontains k l then aupdate k v l else l ++ [(k, v)]

/-- `HashMap::keys`. -/
def akeys {κ α : Type} (l : List (κ × α)) : List κ := l.map Prod.fst

/-- `HashMap::values`. -/
def avalues {κ α : Type} (l : List (κ × α)) : List α := l.map Prod.snd

/-! ### The engine state (`BacktestingEngine` of `backtesting.rs`) -/

/-- The mutable state of `BacktestingEngine` that the replay loop and the
order API touch.  `pos` is the strategy's position field, which the
engine mutates through `get_pos_mut`.  `daily_results` keeps, per date,
the `close_price` field written by `update_daily_close` (the only field
that function touches).  Run parameters not read by the embedded
operations (rate, slippage, capital, ...) are omitted. -/
structure BacktestingEngine where
  mode : BacktestingMode
  symbol : String
  exchange : Exchange
  bar : BarData
  tick : TickData
  datetime : DateTime
  stop_order_count : Nat
  stop_orders : List (Nat × StopOrder)
  active_stop_orders : List (Nat × StopOrder)
  limit_order_count : Nat
  limit_orders : List (Nat × OrderData)
  active_limit_orders : List (Nat × OrderData)
  trade_count : Nat
  trades : List (Nat × TradeData)
  pos : ℚ
  callbacks : List Callback
  daily_results : List (Int × ℚ)
deriving DecidableEq, Repr

/-- Record a strategy callback invocation. -/
def emit (e : BacktestingEngine) (c : Callback) : BacktestingEngine :=
  { e with callbacks := e.callbacks ++ [c] }

/-- The four price parameters computed at the top of
`cross_limit_order` / `cross_stop_order`. -/
structure CrossPrices where
  long_cross_price : ℚ
  short_cross_price : ℚ
  long_best_price : ℚ
  short_best_price : ℚ
deriving DecidableEq, Repr

/-- Price rules of `cross_limit_order` (bar mode: cross on low/high,
best price is the open; tick mode: cross and best on ask_1/bid_1). -/
def limitCrossPrices (e : BacktestingEngine) : CrossPrices :=
  if e.mode = .BAR then
    ⟨e.bar.low_price, e.bar.high_price, e.bar.open_price, e.bar.open_price⟩
  else
    ⟨e.tick.ask_price_1, e.tick.bid_price_1, e.tick.ask_price_1, e.tick.bid_price_1⟩

/-- Price rules of `cross_stop_order` (bar mode: trigger on high/low,
best price is the open; tick mode: last price everywhere). -/
def stopCrossPrices (e : BacktestingEngine) : CrossPrices :=
  if e.mode = .BAR then
    ⟨e.bar.high_price, e.bar.low_price, e.bar.open_price, e.bar.open_price⟩
  else
    ⟨e.tick.last_price, e.tick.last_price, e.tick.last_price, e.tick.last_price⟩

/-- The body of the `for order in value_list` loop of
`cross_limit_order`, acting on one snapshot entry. -/
def crossLimitStep (pr : CrossPrices) (e : BacktestingEngine)
    (p : Nat × OrderData) : BacktestingEngine :=
  let k := p.1
  let order0 := p.2
  -- push order update with status "not traded" (the write through the
  -- shared cell is visible in both maps)
  let order1 := if order0.status = .SUBMITTING then
      { order0 with status := .NOTTRADED } else order0
  let e1 := if order0.status = .SUBMITTING then
      emit { e with limit_orders := aupdate k order1 e.limit_orders,
                    active_limit_orders := aupdate k order1 e.active_limit_orders }
        (.onOrder order1)
    else e
  let long_cross : Prop := order1.direction = .LONG ∧
      pr.long_cross_price ≤ order1.price ∧ 0 < pr.long_cross_price
  let short_cross : Prop := order1.direction = .SHORT ∧
      order1.price ≤ pr.short_cross_price ∧ 0 < pr.short_cross_price
  if long_cross ∨ short_cross then
    -- push order update with status "all traded"
    let order2 := { order1 with traded := order1.volume, status := .ALLTRADED }
    let e2 := emit { e1 with limit_orders := aupdate k order2 e1.limit_orders,
                             active_limit_orders := aupdate k order2 e1.active_limit_orders }
        (.onOrder order2)
    let e3 := if acontains k e2.active_limit_orders then
        { e2 with active_limit_orders := aremove k e2.active_limit_orders }
      else e2
    let e4 := { e3 with trade_count := e3.trade_count + 1 }
    let trade_price := if long_cross then min order2.price pr.long_best_price
      else max order2.price pr.short_best_price
    let pos_change := if long_cross then order2.volume else -order2.volume
    let trade : TradeData :=
      { symbol := order2.symbol, exchange := order2.exchange,
        orderid := order2.orderid, tradeid := e4.trade_count,
        direction := order2.direction, offset := order2.offset,
        price := trade_price, volume := order2.volume, datetime := e4.datetime }
    let e5 := { e4 with pos := e4.pos + pos_change }
    let e6 := emit e5 (.onTrade trade)
    { e6 with trades := ainsert trade.tradeid trade e6.trades }
  else e1

/-- `cross_limit_order`: cross the snapshot of active limit orders
against the current bar/tick. -/
def cross_limit_order (e : BacktestingEngine) : BacktestingEngine :=
  (e.active_limit_orders).foldl (crossLimitStep (limitCrossPrices e)) e

/-- The body of the `for stop_order in value_list` loop of
`cross_stop_order`, acting on one snapshot entry. -/
def crossStopStep (pr : CrossPrices) (e : BacktestingEngine)
    (p : Nat × StopOrder) : BacktestingEngine :=
  let k := p.1
  let stop0 := p.2
  let long_cross : Prop := stop0.direction = .LONG ∧
      stop0.price ≤ pr.long_cross_price
  let short_cross : Prop := stop0.direction = .SHORT ∧
      pr.short_cross_price ≤ stop0.price
  if long_cross ∨ short_cross then
    -- create order data, born fully filled
    let e1 := { e with limit_order_count := e.limit_order_count + 1 }
    let order : OrderData :=
      { symbol := e1.symbol, exchange := e1.exchange,
        orderid := e1.limit_order_count, direction := stop0.direction,
        offset := stop0.offset, price := stop0.price, volume := stop0.volume,
        traded := stop0.volume, status := .ALLTRADED, datetime := e1.datetime }
    let e2 := { e1 with limit_orders := ainsert order.orderid order e1.limit_orders }
    -- create trade data
    let trade_price := if long_cross then max stop0.price pr.long_best_price
      else min stop0.price pr.short_best_price
    let pos_change := if long_cross then order.volume else -order.volume
    let e3 := { e2 with trade_count := e2.trade_count + 1 }
    let trade : TradeData :=
      { symbol := order.symbol, exchange := order.exchange,
        orderid := order.orderid, tradeid := e3.trade_count,
        direction := order.direction, offset := order.offset,
        price := trade_price, volume := order.volume, datetime := e3.datetime }
    let e4 := { e3 with trades := ainsert trade.tradeid trade e3.trades }
    -- update stop order (visible in both stop maps through the cell)
    let stop1 := { stop0 with vt_orderids := stop0.vt_orderids ++ [order.orderid],
                              status := .TRIGGERED }
    let e5 := { e4 with stop_orders := aupdate k stop1 e4.stop_orders,
                        active_stop_orders := aupdate k stop1 e4.active_stop_orders }
    let e6 := if acontains k e5.active_stop_orders then
        { e5 with active_stop_orders := aremove k e5.active_stop_orders }
      else e5
    -- push updates to the strategy
    let e7 := emit e6 (.onStopOrder stop1)
    let e8 := emit e7 (.onOrder order)
    let e9 := { e8 with pos := e8.pos + pos_change }
    emit e9 (.onTrade trade)
  else e

/-- `cross_stop_order`: trigger the snapshot of active stop orders
against the current bar/tick. -/
def cross_stop_order (e : BacktestingEngine) : BacktestingEngine :=
  (e.active_stop_orders).foldl (crossStopStep (stopCrossPrices e)) e

/-- `update_daily_close`: create or overwrite the DailyResult close for
the date of the current engine time. -/
def update_daily_close (e : BacktestingEngine) (price : ℚ) : BacktestingEngine :=
  let d := e.datetime.day
  if acontains d e.daily_results then
    { e with daily_results := aupdate d price e.daily_results }
  else
    { e with daily_results := e.daily_results ++ [(d, price)] }

/-- `new_bar`: the per-event handler in BAR mode (update time, cross
limit orders, cross stop orders, call `on_bar`, update the daily
close).  A tick payload is ignored (the source pattern-matches on
`MixData::BarData`). -/
def new_bar (e : BacktestingEngine) (m : MixData) : BacktestingEngine :=
  match m with
  | .bar b =>
    let e1 := { e with bar := b, datetime := b.datetime }
    let e2 := cross_limit_order e1
    let e3 := cross_stop_order e2
    let e4 := emit e3 (.onBar b)
    update_daily_close e4 e4.bar.close_price
  | .tick _ => e

/-- `new_tick`: the per-event handler in TICK mode.  The source body is
empty (`fn new_tick(&mut self, tick: &MixData) {}`). -/
def new_tick (e : BacktestingEngine) (_m : MixData) : BacktestingEngine := e

/-- `send_limit_order`: allocate the next order id, create a SUBMITTING
order, insert it into both limit maps, return its id. -/
def send_limit_order (e : BacktestingEngine) (d : Direction) (o : Offset)
    (price volume : ℚ) : BacktestingEngine × Nat :=
  let e1 := { e with limit_order_count := e.limit_order_count + 1 }
  let order : OrderData :=
    { symbol := e1.symbol, exchange := e1.exchange,
      orderid := e1.limit_order_count, direction := d, offset := o,
      price := price, volume := volume, traded := 0,
      status := .SUBMITTING, datetime := e1.datetime }
  ({ e1 with
      active_limit_orders := ainsert order.orderid order e1.active_limit_orders,
      limit_orders := ainsert order.orderid order e1.limit_orders },
   order.orderid)

/-- `send_stop_order`: allocate the next stop id, create a WAITING stop
order, insert it into both stop maps, return its id. -/
def send_stop_order (e : BacktestingEngine) (d : Direction) (o : Offset)
    (price volume : ℚ) : BacktestingEngine × Nat :=
  let e1 := { e with stop_order_count := e.stop_order_count + 1 }
  let stop : StopOrder :=
    { vt_symbol := e1.symbol, direction := d, offset := o,
      price := price, volume := volume, stop_orderid := e1.stop_order_count,
      datetime := e1.datetime, vt_orderids := [], status := .WAITING }
  ({ e1 with
      active_stop_orders := ainsert stop.stop_orderid stop e1.active_stop_orders,
      stop_orders := ainsert stop.stop_orderid stop e1.stop_orders },
   stop.stop_orderid)

/-- `cancel_limit_order`: silently return when the id is not active;
otherwise remove it from the active map, mark it CANCELLED (visible in
`limit_orders` through the shared cell) and notify `on_order`. -/
def cancel_limit_order (e : BacktestingEngine) (k : Nat) : BacktestingEngine :=
  match alookup k e.active_limit_orders with
  | none => e
  | some o =>
    let o1 := { o with status := Status.CANCELLED }
    emit { e with active_limit_orders := aremove k e.active_limit_orders,
                  limit_orders := aupdate k o1 e.limit_orders }
      (.onOrder o1)

/-- `cancel_stop_order`: silently return when the id is not active;
otherwise remove it from the active map, mark it CANCELLED (visible in
`stop_orders` through the shared cell) and notify `on_stop_order`. -/
def cancel_stop_order (e : BacktestingEngine) (k : Nat) : BacktestingEngine :=
  match alookup k e.active_stop_orders with
  | none => e
  | some s =>
    let s1 := { s with status := StopOrderStatus.CANCELLED }
    emit { e with active_stop_orders := aremove k e.active_stop_orders,
                  stop_orders := aupdate k s1 e.stop_orders }
      (.onStopOrder s1)

/-! ### Runs

A run interleaves market events with the engine calls a strategy may
make from its callbacks (`send_order` with `stop` false/true,
`cancel_order`).  The commands below are exactly those engine entry
points; the strategy body itself is opaque and, in particular, never
writes the `pos` field (only the engine does, in the crossing code). -/

/-- One engine entry point invocation. -/
inductive Cmd where
  | newBar (m : MixData)
  | sendLimit (d : Direction) (o : Offset) (price volume : ℚ)
  | sendStop (d : Direction) (o : Offset) (price volume : ℚ)
  | cancelLimit (k : Nat)
  | cancelStop (k : Nat)
deriving DecidableEq, Repr

/-- Apply one command to the engine. -/
def stepCmd (e : BacktestingEngine) : Cmd → BacktestingEngine
  | .newBar m => new_bar e m
  | .sendLimit d o p v => (send_limit_order e d o p v).1
  | .sendStop d o p v => (send_stop_order e d o p v).1
  | .cancelLimit k => cancel_limit_order e k
  | .cancelStop k => cancel_stop_order e k

/-- Run a command list. -/
def runCmds (e : BacktestingEngine) (cs : List Cmd) : BacktestingEngine :=
  cs.foldl stepCmd e

/-- The all-empty bar used for the initial engine state. -/
def bar0 : BarData :=
  { symbol := "", exchange := .LOCAL, datetime := ⟨0, 0⟩, interval := .NONE,
    volume := 0, turnover := 0, open_interest := 0, open_price := 0,
    high_price := 0, low_price := 0, close_price := 0 }

/-- The all-empty tick used for the initial engine state. -/
def tick0 : TickData :=
  { symbol := "", exchange := .LOCAL, datetime := ⟨0, 0⟩, last_price := 0,
    bid_price_1 := 0, ask_price_1 := 0 }

/-- A freshly constructed engine after `set_parameters`/`clear_data`:
empty maps, zero counters, zero position. -/
def mkEngine (mode : BacktestingMode) (symbol : String) (exchange : Exchange) :
    BacktestingEngine :=
  { mode := mode, symbol := symbol, exchange := exchange, bar := bar0,
    tick := tick0, datetime := ⟨0, 0⟩, stop_order_count := 0,
    stop_orders := [], active_stop_orders := [], limit_order_count := 0,
    limit_orders := [], active_limit_orders := [], trade_count := 0,
    trades := [], pos := 0, callbacks := [], daily_results := [] }

/-- The signed volume of a trade (`+volume` for LONG, `-volume` else;
the engine only ever creates LONG or SHORT trades). -/
def signedVolume (t : TradeData) : ℚ :=
  if t.direction = .LONG then t.volume else -t.volume

/-- Sum of signed volumes over the trades map. -/
def posSum (l : List (Nat × TradeData)) : ℚ :=
  ((avalues l).map signedVolume).sum

/-! ### `utility.rs`: vt_symbol parsing and price rounding -/

/-- Split a character list at its first `'.'`: `some (before, after)`,
or `none` when there is no dot. -/
def breakAtDot : List Char → Option (List Char × List Char)
  | [] => none
  | c :: cs =>
    if c = '.' then some ([], cs)
    else match breakAtDot cs with
      | none => none
      | some (a, b) => some (c :: a, b)

/-- `extract_vt_symbol` from `utility.rs`:
`vt_symbol.rsplitn(2, ".")` yields `[suffix-after-last-dot,
everything-before-it]`; element 1 is the symbol and element 0 is parsed
as the exchange.  `none` models the panics (no dot: index out of
bounds; unknown exchange: `unwrap` of `from_str`). -/
def extract_vt_symbol (s : String) : Option (String × Exchange) :=
  match breakAtDot s.data.reverse with
  | none => none
  | some (revSuffix, revPre) =>
    (Exchange.fromStr ⟨revSuffix.reverse⟩).map
      (fun ex => (⟨revPre.reverse⟩, ex))

/-- The vt_symbol parsing inside `set_parameters` (`backtesting.rs`
lines 108–111): `vt_symbol.split(".")`, symbol is `v[0]`, exchange is
`from_str(v[1]).unwrap()`.  `none` models the panics (fewer than two
split pieces, or an unknown exchange name between the first and second
dots). -/
def set_parameters_parse (s : String) : Option (String × Exchange) :=
  match breakAtDot s.data with
  | none => none
  | some (v0, rest) =>
    let v1 := match breakAtDot rest with
      | none => rest
      | some (a, _) => a
    (Exchange.fromStr ⟨v1⟩).map (fun ex => (⟨v0⟩, ex))

/-- Rounding to the nearest integer with ties to even: the semantics of
`rust_decimal`'s `Decimal::round` (banker's rounding) used by
`round_to`. -/
def roundTiesEven (q : ℚ) : ℤ :=
  let f := ⌊q⌋
  let r := q - f
  if r < 1/2 then f
  else if 1/2 < r then f + 1
  else if f % 2 = 0 then f else f + 1

/-- `round_to` from `utility.rs`: decimal-exact
`(value / target).round() * target` (the source converts through
`Decimal` precisely to avoid binary-float drift, so exact rational
arithmetic is the faithful embedding).  Defined for `target ≠ 0` (the
source panics on a zero tick: decimal division by zero). -/
def round_to (value target : ℚ) : ℚ :=
  ((roundTiesEven (value / target) : ℤ) : ℚ) * target

/-! ### `cancel_order` dispatch (`backtesting.rs` lines 908–914) -/

/-- The source constant `STOPORDER_PREFIX` from `base.rs`:
the string "STOP" (no trailing dot). -/
def stopOrderIdHead : String := "STOP"

/-- `str::starts_with` on character lists. -/
def startsWithList : List Char → List Char → Bool
  | _, [] => true
  | [], _ :: _ => false
  | c :: cs, p :: ps => c = p && startsWithList cs ps

/-- Which cancellation routine `cancel_order` dispatches to. -/
inductive CancelRoute where
  | stop
  | limit
deriving DecidableEq, Repr

/-- The dispatch performed by `cancel_order`:
`if vt_orderid.starts_with(STOPORDER_PREFIX) { cancel_stop_order }
else { cancel_limit_order }`. -/
def cancel_order_route (vt_orderid : String) : CancelRoute :=
  if startsWithList vt_orderid.data stopOrderIdHead.data then .stop
  else .limit

/-! ### The daily-return column of `calculate_statistics`
(`backtesting.rs` lines 390–422)

`balance = cumsum(net_pnl) + capital`, `pre_balance = balance shifted by
one and filled with capital`, `x = balance / pre_balance`, and
`return = if x < 0.0 { 0.0 } else { x.ln() }` per row.  The value of an
`f64` natural logarithm is embedded symbolically: what matters for the
specification is only which of the three distinguishable outcomes
occurs (`0.0`, `-inf = ln(0.0)`, or the finite logarithm of a positive
ratio), and IEEE 754 distinguishes all three. -/

/-- Symbolic value of one entry of the `return` column. -/
inductive RetVal where
  /-- the literal `0.0` written by the `x < 0.0` guard -/
  | zero
  /-- `f64::ln(0.0) = -inf` -/
  | negInf
  /-- the finite value `f64::ln(ratio)` for a ratio `> 0` -/
  | lnOf (ratio : ℚ)
  /-- `f64::ln` of a negative number (never produced by this code path) -/
  | nan
deriving DecidableEq, Repr

/-- `f64::ln` on the embedded rationals, by outcome class. -/
def f64_ln (x : ℚ) : RetVal :=
  if x < 0 then .nan else if x = 0 then .negInf else .lnOf x

/-- One row of the `return` column:
`if *x < 0.0 { 0.0 } else { f64::ln(*x) }`. -/
def return_of_ratio (x : ℚ) : RetVal :=
  if x < 0 then .zero else f64_ln x

/-- The `balance` column: `capital + cumulative sum of net_pnl`. -/
def balances (capital : ℚ) : List ℚ → List ℚ
  | [] => []
  | x :: xs => (capital + x) :: balances (capital + x) xs

/-- The `pre_balance` column: `balance.shift_and_fill(1, capital)`. -/
def pre_balances (capital : ℚ) (netPnls : List ℚ) : List ℚ :=
  capital :: (balances capital netPnls).dropLast

/-- The `return` column computed row by row from the two balance
columns. -/
def returnsCol (capital : ℚ) (netPnls : List ℚ) : List RetVal :=
  (List.zip (balances capital netPnls) (pre_balances capital netPnls)).map
    (fun p => return_of_ratio (p.1 / p.2))

/-! ### Reachable-state invariants -/

/-- The well-formedness invariant the engine maintains across every
entry point, used to settle the run-level claims: the strategy position
mirrors the signed trade volume; every trade has a matching order in
the `limit_orders` history; the active maps are consistent sub-maps of
the history maps; ids never exceed the counters. -/
structure EngInv (e : BacktestingEngine) : Prop where
  pos_eq : e.pos = posSum e.trades
  trade_order : ∀ t ∈ avalues e.trades, ∃ o ∈ avalues e.limit_orders,
      o.orderid = t.orderid ∧ o.direction = t.direction ∧ o.volume = t.volume
  limit_nodup : (akeys e.limit_orders).Nodup
  limit_bound : ∀ k ∈ akeys e.limit_orders, k ≤ e.limit_order_count
  active_sub : ∀ p ∈ e.active_limit_orders, alookup p.1 e.limit_orders = some p.2
  active_nodup : (akeys e.active_limit_orders).Nodup
  stop_nodup : (akeys e.stop_orders).Nodup
  stop_bound : ∀ k ∈ akeys e.stop_orders, k ≤ e.stop_order_count
  active_stop_sub : ∀ p ∈ e.active_stop_orders, alookup p.1 e.stop_orders = some p.2
  active_stop_nodup : (akeys e.active_stop_orders).Nodup
  trade_bound : ∀ k ∈ akeys e.trades, k ≤ e.trade_count
  tradeid_bound : ∀ t ∈ avalues e.trades, t.tradeid ≤ e.trade_count

/-- What a `cross_limit_order` loop iteration on a key other than `K`
leaves untouched between states `e` and `f`: the limit-map entries at
`K`, and trades already recorded (whose keys respect the counter).
Reflexive and transitive, so it transports along the loop. -/
def LimitFrame (K : Nat) (e f : BacktestingEngine) : Prop :=
  alookup K f.limit_orders = alookup K e.limit_orders ∧
  alookup K f.active_limit_orders = alookup K e.active_limit_orders ∧
  e.trade_count ≤ f.trade_count ∧
  (∀ q : Nat × TradeData, q ∈ e.trades → q.1 ≤ e.trade_count → q ∈ f.trades)

/-- What a `cross_stop_order` loop iteration on a key other than `K`
leaves untouched between states `e` and `f`: the stop-map entries at
`K`, trades already recorded, limit-history entries at keys within the
old counter, and the untouched active limit map. -/
def StopFrame (K : Nat) (e f : BacktestingEngine) : Prop :=
  alookup K f.stop_orders = alookup K e.stop_orders ∧
  alookup K f.active_stop_orders = alookup K e.active_stop_orders ∧
  e.trade_count ≤ f.trade_count ∧
  (∀ q : Nat × TradeData, q ∈ e.trades → q.1 ≤ e.trade_count → q ∈ f.trades) ∧
  e.limit_order_count ≤ f.limit_order_count ∧
  (∀ k2 : Nat, k2 ≤ e.limit_order_count →
    alookup k2 f.limit_orders = alookup k2 e.limit_orders) ∧
  f.active_limit_orders = e.active_limit_orders

/-! ### Concrete data used by counterexamples and witnesses -/

/-- A daily bar with open 108, high 112, low 106, close 110 (scenario
S2/S3 of the spec). -/
def barX : BarData :=
  { symbol := "ETH", exchange := .LOCAL, datetime := ⟨2, 0⟩, interval := .DAILY,
    volume := 0, turnover := 0, open_interest := 0, open_price := 108,
    high_price := 112, low_price := 106, close_price := 110 }

/-- A run that sends a LONG stop at 107 and then replays `barX`
(scenario S3): the stop triggers and trades at `max (107, 108) = 108`. -/
def engStopRun : BacktestingEngine :=
  runCmds (mkEngine .BAR "ETH" .LOCAL)
    [.sendStop .LONG .OPEN 107 1, .newBar (.bar barX)]

/-- A BAR-mode engine holding one resting LONG limit order at 120,
with `barX` already loaded as the current bar (scenario S2: the order
crosses on `low = 106 ≤ 120` and fills at `min (120, 108) = 108`). -/
def engLimRun : BacktestingEngine :=
  { runCmds (mkEngine .BAR "ETH" .LOCAL) [.sendLimit .LONG .OPEN 120 1] with
      bar := barX }

/-- The resting order held by `engLimRun` under key 1. -/
def orderWit : OrderData :=
  { symbol := "ETH", exchange := .LOCAL, orderid := 1, direction := .LONG,
    offset := .OPEN, price := 120, volume := 1, traded := 0,
    status := .SUBMITTING, datetime := ⟨0, 0⟩ }

/-- A BAR-mode engine holding one WAITING LONG stop order at 107, with
`barX` already loaded as the current bar (scenario S3: the stop
triggers on `107 ≤ high = 112` and trades at `max (107, 108) = 108`). -/
def engStopWit : BacktestingEngine :=
  { runCmds (mkEngine .BAR "ETH" .LOCAL) [.sendStop .LONG .OPEN 107 1] with
      bar := barX }

/-- The resting stop order held by `engStopWit` under key 1. -/
def stopWit : StopOrder :=
  { vt_symbol := "ETH", direction := .LONG, offset := .OPEN, price := 107,
    volume := 1, stop_orderid := 1, datetime := ⟨0, 0⟩, vt_orderids := [],
    status := .WAITING }

/-- A TICK-mode engine holding one resting LONG limit order at 120. -/
def engTick : BacktestingEngine :=
  runCmds (mkEngine .TICK "ETH" .LOCAL) [.sendLimit .LONG .OPEN 120 1]

/-- A tick whose ask would cross the order of `engTick`. -/
def tickX : TickData :=
  { symbol := "ETH", exchange := .LOCAL, datetime := ⟨2, 0⟩,
    last_price := 100, bid_price_1 := 99, ask_price_1 := 100 }

/-! ## Association-list lemmas -/

theorem alookup_cons {κ α : Type} [DecidableEq κ] (k : κ) (p : κ × α)
    (rest : List (κ × α)) :
    alookup k (p :: rest) = if p.1 = k then some p.2 else alookup k rest :=
  rfl

theorem aupdate_cons {κ α : Type} [DecidableEq κ] (k : κ) (v : α)
    (p : κ × α) (rest : List (κ × α)) :
    aupdate k v (p :: rest) =
      (if p.1 = k then (k, v) else p) :: aupdate k v rest :=
  rfl

theorem aremove_cons {κ α : Type} [DecidableEq κ] (k : κ) (p : κ × α)
    (rest : List (κ × α)) :
    aremove k (p :: rest) =
      if p.1 = k then aremove k rest else p :: aremove k rest := by
  by_cases h : p.1 = k <;> simp [aremove, List.filter_cons, h]

theorem mem_akeys {κ α : Type} {k : κ} {l : List (κ × α)} :
    k ∈ akeys l ↔ ∃ v, (k, v) ∈ l := by
  constructor
  · intro h
    obtain ⟨p, hp, hk⟩ := List.mem_map.mp h
    refine ⟨p.2, ?_⟩
    have : (k, p.2) = p := by
      obtain ⟨p1, p2⟩ := p
      simp only at hk
      rw [hk]
    rwa [this]
  · rintro ⟨v, hv⟩
    exact List.mem_map.mpr ⟨(k, v), hv, rfl⟩

theorem alookup_eq_none {κ α : Type} [DecidableEq κ] {k : κ}
    {l : List (κ × α)} : alookup k l = none ↔ k ∉ akeys l := by
  induction l with
  | nil => simp [alookup, akeys]
  | cons p rest ih =>
    rw [alookup_cons]
    by_cases h : p.1 = k
    · simp [akeys, h]
    · rw [if_neg h, ih]
      simp only [akeys, List.map_cons, List.mem_cons]
      push_neg
      constructor
      · intro hn
        exact ⟨fun hk => h hk.symm, hn⟩
      · intro hn
        exact hn.2

theorem alookup_mem {κ α : Type} [DecidableEq κ] {k : κ} {v : α}
    {l : List (κ × α)} (h : alookup k l = some v) : (k, v) ∈ l := by
  induction l with
  | nil => simp [alookup] at h
  | cons p rest ih =>
    rw [alookup_cons] at h
    by_cases hp : p.1 = k
    · rw [if_pos hp] at h
      have hv : p.2 = v := by injection h
      have hpk : p = (k, v) := by
        obtain ⟨p1, p2⟩ := p
        simp only at hp hv
        rw [hp, hv]
      rw [hpk]
      exact List.mem_cons_self _ _
    · rw [if_neg hp] at h
      exact List.mem_cons_of_mem _ (ih h)

theorem alookup_of_mem_akeys {κ α : Type} [DecidableEq κ] {k : κ}
    {l : List (κ × α)} (h : k ∈ akeys l) : ∃ v, alookup k l = some v := by
  cases hv : alookup k l with
  | none => exact absurd h (alookup_eq_none.mp hv)
  | some v => exact ⟨v, rfl⟩

theorem akeys_aupdate {κ α : Type} [DecidableEq κ] (k : κ) (v : α)
    (l : List (κ × α)) : akeys (aupdate k v l) = akeys l := by
  induction l with
  | nil => rfl
  | cons p rest ih =>
    rw [aupdate_cons]
    by_cases h : p.1 = k
    · rw [if_pos h]
      show k :: akeys (aupdate k v rest) = p.1 :: akeys rest
      rw [ih, h]
    · rw [if_neg h]
      show p.1 :: akeys (aupdate k v rest) = p.1 :: akeys rest
      rw [ih]

theorem alookup_aupdate_ne {κ α : Type} [DecidableEq κ] {k q : κ} (v : α)
    (l : List (κ × α)) (h : q ≠ k) :
    alookup k (aupdate q v l) = alookup k l := by
  induction l with
  | nil => rfl
  | cons p rest ih =>
    rw [aupdate_cons]
    by_cases hp : p.1 = q
    · rw [if_pos hp, alookup_cons, alookup_cons]
      simp only
      rw [if_neg h, if_neg (by rw [hp]; exact h), ih]
    · rw [if_neg hp, alookup_cons, alookup_cons, ih]

theorem alookup_aupdate_self {κ α : Type} [DecidableEq κ] {k : κ} (v : α)
    {l : List (κ × α)} (hk : k ∈ akeys l) :
    alookup k (aupdate k v l) = some v := by
  induction l with
  | nil => simp [akeys] at hk
  | cons p rest ih =>
    rw [aupdate_cons]
    by_cases hp : p.1 = k
    · rw [if_pos hp, alookup_cons]
      simp
    · rw [if_neg hp, alookup_cons, if_neg hp]
      refine ih ?_
      simp only [akeys, List.map_cons, List.mem_cons] at hk
      rcases hk with hk | hk
      · exact absurd hk.symm hp
      · exact hk

theorem mem_aupdate_of_ne {κ α : Type} [DecidableEq κ] {q : κ} {w : α}
    (k : κ) (v : α) {l : List (κ × α)} (h : (q, w) ∈ l) (hne : q ≠ k) :
    (q, w) ∈ aupdate k v l := by
  refine List.mem_map.mpr ⟨(q, w), h, ?_⟩
  simp [hne]

theorem avalues_aupdate_subset {κ α : Type} [DecidableEq κ] {t : α}
    {k : κ} {v : α} {l : List (κ × α)}
    (h : t ∈ avalues (aupdate k v l)) : t = v ∨ t ∈ avalues l := by
  simp only [avalues, aupdate, List.map_map, List.mem_map] at h
  obtain ⟨q, hq, hqt⟩ := h
  by_cases hqk : q.1 = k
  · left
    simp only [Function.comp, if_pos hqk] at hqt
    exact hqt.symm
  · right
    simp only [Function.comp, if_neg hqk] at hqt
    exact List.mem_map.mpr ⟨q, hq, hqt⟩

theorem alookup_aremove_self {κ α : Type} [DecidableEq κ] (k : κ)
    (l : List (κ × α)) : alookup k (aremove k l) = none := by
  induction l with
  | nil => rfl
  | cons p rest ih =>
    rw [aremove_cons]
    by_cases hp : p.1 = k
    · rwa [if_pos hp]
    · rw [if_neg hp, alookup_cons, if_neg hp]
      exact ih

theorem alookup_aremove_ne {κ α : Type} [DecidableEq κ] {k q : κ}
    (l : List (κ × α)) (h : q ≠ k) :
    alookup k (aremove q l) = alookup k l := by
  induction l with
  | nil => rfl
  | cons p rest ih =>
    rw [aremove_cons]
    by_cases hp : p.1 = q
    · rw [if_pos hp, alookup_cons, if_neg (by rw [hp]; exact h), ih]
    · rw [if_neg hp, alookup_cons, alookup_cons, ih]

theorem nodup_akeys_aremove {κ α : Type} [DecidableEq κ] (k : κ)
    {l : List (κ × α)} (h : (akeys l).Nodup) :
    (akeys (aremove k l)).Nodup :=
  ((List.filter_sublist l).map Prod.fst).nodup h

theorem mem_aremove_of_ne {κ α : Type} [DecidableEq κ] {q : κ} {w : α}
    (k : κ) {l : List (κ × α)} (h : (q, w) ∈ l) (hne : q ≠ k) :
    (q, w) ∈ aremove k l := by
  refine List.mem_filter.mpr ⟨h, ?_⟩
  simpa using hne

theorem avalues_aremove_subset {κ α : Type} [DecidableEq κ] {t : α}
    {k : κ} {l : List (κ × α)} (h : t ∈ avalues (aremove k l)) :
    t ∈ avalues l := by
  simp only [avalues, aremove, List.mem_map] at h ⊢
  obtain ⟨p, hp, hpt⟩ := h
  exact ⟨p, (List.mem_filter.mp hp).1, hpt⟩

theorem acontains_iff {κ α : Type} [DecidableEq κ] {k : κ}
    {l : List (κ × α)} : acontains k l = true ↔ k ∈ akeys l := by
  simp only [acontains, List.any_eq_true, decide_eq_true_eq]
  constructor
  · rintro ⟨p, hp, hk⟩
    exact mem_akeys.mpr ⟨p.2, by rwa [show (k, p.2) = p from by rw [← hk]]⟩
  · intro h
    obtain ⟨v, hv⟩ := mem_akeys.mp h
    exact ⟨(k, v), hv, rfl⟩

theorem ainsert_of_not_mem {κ α : Type} [DecidableEq κ] {k : κ} (v : α)
    {l : List (κ × α)} (h : k ∉ akeys l) : ainsert k v l = l ++ [(k, v)] := by
  rw [ainsert, if_neg]
  intro hc
  exact h (acontains_iff.mp hc)

theorem alookup_append_single_ne {κ α : Type} [DecidableEq κ] {k q : κ}
    (v : α) (l : List (κ × α)) (h : q ≠ k) :
    alookup k (l ++ [(q, v)]) = alookup k l := by
  induction l with
  | nil => simp [alookup, h]
  | cons p rest ih =>
    by_cases hp : p.1 = k
    · simp [alookup, hp]
    · simp [alookup, hp, ih]

theorem alookup_ainsert_ne {κ α : Type} [DecidableEq κ] {k q : κ} (v : α)
    (l : List (κ × α)) (h : q ≠ k) :
    alookup k (ainsert q v l) = alookup k l := by
  rw [ainsert]
  by_cases hc : acontains q l
  · rw [if_pos hc, alookup_aupdate_ne _ _ h]
  · rw [if_neg hc, alookup_append_single_ne _ _ h]

theorem mem_ainsert_of_ne {κ α : Type} [DecidableEq κ] {q : κ} {w : α}
    (k : κ) (v : α) {l : List (κ × α)} (h : (q, w) ∈ l) (hne : q ≠ k) :
    (q, w) ∈ ainsert k v l := by
  rw [ainsert]
  by_cases hc : acontains k l
  · rw [if_pos hc]
    exact mem_aupdate_of_ne _ _ h hne
  · rw [if_neg hc]
    exact List.mem_append_left _ h

theorem avalues_ainsert_subset {κ α : Type} [DecidableEq κ] {t : α}
    {k : κ} {v : α} {l : List (κ × α)} (h : t ∈ avalues (ainsert k v l)) :
    t = v ∨ t ∈ avalues l := by
  rw [ainsert] at h
  by_cases hc : acontains k l
  · rw [if_pos hc] at h
    exact avalues_aupdate_subset h
  · rw [if_neg hc] at h
    simp only [avalues, List.map_append, List.mem_append, List.map_cons] at h
    rcases h with h | h
    · exact Or.inr h
    · simp at h
      exact Or.inl h

theorem self_mem_avalues_ainsert {κ α : Type} [DecidableEq κ] (k : κ)
    (v : α) (l : List (κ × α)) : v ∈ avalues (ainsert k v l) := by
  rw [ainsert]
  by_cases hc : acontains k l
  · rw [if_pos hc]
    obtain ⟨w, hw⟩ := mem_akeys.mp (acontains_iff.mp hc)
    exact List.mem_map.mpr ⟨(k, v), List.mem_map.mpr ⟨(k, w), hw, by simp⟩, rfl⟩
  · rw [if_neg hc]
    simp [avalues]

theorem akeys_ainsert_subset {κ α : Type} [DecidableEq κ] {q k : κ}
    {v : α} {l : List (κ × α)} (h : q ∈ akeys (ainsert k v l)) :
    q = k ∨ q ∈ akeys l := by
  rw [ainsert] at h
  by_cases hc : acontains k l
  · rw [if_pos hc, akeys_aupdate] at h
    exact Or.inr h
  · rw [if_neg hc] at h
    simp only [akeys, List.map_append, List.mem_append] at h
    rcases h with h | h
    · exact Or.inr h
    · simp at h
      exact Or.inl h

theorem posSum_append_single (l : List (Nat × TradeData)) (k : Nat)
    (t : TradeData) : posSum (l ++ [(k, t)]) = posSum l + signedVolume t := by
  simp [posSum, avalues]

theorem mem_avalues {κ α : Type} {t : α} {l : List (κ × α)} :
    t ∈ avalues l ↔ ∃ k, (k, t) ∈ l := by
  constructor
  · intro h
    obtain ⟨p, hp, hk⟩ := List.mem_map.mp h
    refine ⟨p.1, ?_⟩
    have : (p.1, t) = p := by
      obtain ⟨p1, p2⟩ := p
      simp only at hk
      rw [hk]
    rwa [this]
  · rintro ⟨k, hv⟩
    exact List.mem_map.mpr ⟨(k, t), hv, rfl⟩

theorem mem_akeys_of_alookup {κ α : Type} [DecidableEq κ] {k : κ} {v : α}
    {l : List (κ × α)} (h : alookup k l = some v) : k ∈ akeys l := by
  by_contra hk
  rw [alookup_eq_none.mpr hk] at h
  cases h

theorem alookup_unique {κ α : Type} [DecidableEq κ] {k : κ} {w : α}
    {l : List (κ × α)} (hnd : (akeys l).Nodup) (h : (k, w) ∈ l) :
    alookup k l = some w := by
  induction l with
  | nil => cases h
  | cons p rest ih =>
    rw [alookup_cons]
    rcases List.mem_cons.mp h with h | h
    · rw [← h]
      simp
    · have hk : k ∈ akeys rest := mem_akeys.mpr ⟨w, h⟩
      have hp : p.1 ≠ k := by
        intro hpk
        have : p.1 ∉ akeys rest := (List.nodup_cons.mp hnd).1
        rw [hpk] at this
        exact this hk
      rw [if_neg hp]
      exact ih (List.nodup_cons.mp hnd).2 h

theorem mem_aupdate_cases {κ α : Type} [DecidableEq κ] {p : κ × α}
    {k : κ} {v : α} {l : List (κ × α)} (h : p ∈ aupdate k v l) :
    (p = (k, v) ∧ k ∈ akeys l) ∨ (p ∈ l ∧ p.1 ≠ k) := by
  obtain ⟨q, hq, heq⟩ := List.mem_map.mp h
  by_cases hk : q.1 = k
  · rw [if_pos hk] at heq
    exact Or.inl ⟨heq.symm, by rw [← hk]; exact mem_akeys.mpr ⟨q.2, by
      rwa [show (q.1, q.2) = q from rfl]⟩⟩
  · rw [if_neg hk] at heq
    rw [← heq]
    exact Or.inr ⟨hq, hk⟩

theorem mem_avalues_aupdate_self {κ α : Type} [DecidableEq κ] {k : κ}
    (v : α) {l : List (κ × α)} (hk : k ∈ akeys l) :
    v ∈ avalues (aupdate k v l) := by
  obtain ⟨w, hw⟩ := mem_akeys.mp hk
  exact List.mem_map.mpr ⟨(k, v), List.mem_map.mpr ⟨(k, w), hw, by simp⟩, rfl⟩

theorem mem_aremove_iff {κ α : Type} [DecidableEq κ] {p : κ × α} {k : κ}
    {l : List (κ × α)} : p ∈ aremove k l ↔ p ∈ l ∧ p.1 ≠ k := by
  rw [aremove, List.mem_filter]
  simp

theorem akeys_append_single {κ α : Type} (l : List (κ × α)) (k : κ)
    (v : α) : akeys (l ++ [(k, v)]) = akeys l ++ [k] := by
  simp [akeys]

theorem nodup_akeys_ainsert {κ α : Type} [DecidableEq κ] (k : κ) (v : α)
    {l : List (κ × α)} (hnd : (akeys l).Nodup) :
    (akeys (ainsert k v l)).Nodup := by
  rw [ainsert]
  by_cases hc : acontains k l
  · rw [if_pos hc, akeys_aupdate]
    exact hnd
  · rw [if_neg hc, akeys_append_single]
    refine List.Nodup.append hnd (List.nodup_singleton k) ?_
    intro a ha hb
    rw [List.mem_singleton] at hb
    rw [hb] at ha
    exact (fun hkk => hkk (acontains_iff.mpr ha)) hc

theorem posSum_ainsert_fresh {l : List (Nat × TradeData)} {c : Nat}
    (hb : ∀ k ∈ akeys l, k ≤ c) (t : TradeData) :
    posSum (ainsert (c + 1) t l) = posSum l + signedVolume t := by
  rw [ainsert_of_not_mem, posSum_append_single]
  intro h
  exact absurd (hb _ h) (by omega)

theorem trade_order_aupdate {l : List (Nat × OrderData)} {knot : Nat}
    {o0 : OrderData} (o1 : OrderData) (hnd : (akeys l).Nodup)
    (halk : alookup knot l = some o0) (hid : o1.orderid = o0.orderid)
    (hdir : o1.direction = o0.direction) (hvol : o1.volume = o0.volume)
    {T : List (Nat × TradeData)}
    (h : ∀ t ∈ avalues T, ∃ o ∈ avalues l,
        o.orderid = t.orderid ∧ o.direction = t.direction ∧ o.volume = t.volume) :
    ∀ t ∈ avalues T, ∃ o ∈ avalues (aupdate knot o1 l),
        o.orderid = t.orderid ∧ o.direction = t.direction ∧ o.volume = t.volume := by
  intro t ht
  obtain ⟨o, ho, hmatch⟩ := h t ht
  obtain ⟨k, hk⟩ := mem_avalues.mp ho
  by_cases hkk : k = knot
  · rw [hkk] at hk
    have heq : o = o0 := by
      have h2 := alookup_unique hnd hk
      rw [halk] at h2
      injection h2 with h3
      exact h3.symm
    refine ⟨o1, mem_avalues_aupdate_self o1 (mem_akeys_of_alookup halk), ?_⟩
    rw [hid, hdir, hvol, ← heq]
    exact hmatch
  · exact ⟨o, mem_avalues.mpr ⟨k, mem_aupdate_of_ne _ _ hk hkk⟩, hmatch⟩

theorem active_sub_aupdate_both {α : Type} {A L : List (Nat × α)}
    {knot : Nat} {o0 : α} (o1 : α)
    (hsub : ∀ p ∈ A, alookup p.1 L = some p.2)
    (halk : alookup knot L = some o0) :
    ∀ p ∈ aupdate knot o1 A, alookup p.1 (aupdate knot o1 L) = some p.2 := by
  intro p hp
  rcases mem_aupdate_cases hp with ⟨rfl, _⟩ | ⟨hpA, hpk⟩
  · show alookup knot (aupdate knot o1 L) = some o1
    exact alookup_aupdate_self o1 (mem_akeys_of_alookup halk)
  · rw [alookup_aupdate_ne _ _ (fun hk => hpk hk.symm)]
    exact hsub p hpA

/-! ## C9: price rounding is idempotent -/

theorem roundTiesEven_intCast (n : ℤ) : roundTiesEven (n : ℚ) = n := by
  unfold roundTiesEven
  norm_num [Int.floor_intCast]

/-- C9: for every price `p` and every price tick `t` for which
`round_to` is defined (that is, `t ≠ 0`; the decimal division panics on
a zero tick), rounding is idempotent:
`round_to (round_to p t) t = round_to p t`. -/
theorem round_to_idempotent (p t : ℚ) (ht : t ≠ 0) :
    round_to (round_to p t) t = round_to p t := by
  unfold round_to
  rw [mul_div_cancel_right₀ _ ht, roundTiesEven_intCast]

/-- Witness for C9 at `p = 100.37`, `t = 0.5` (scenario S5). -/
theorem round_to_idempotent_witness :
    ((1 : ℚ)/2 ≠ 0) ∧
      round_to (round_to (10037/100) (1/2)) (1/2) =
        round_to ((10037 : ℚ)/100) (1/2) :=
  ⟨by norm_num, round_to_idempotent (10037/100) (1/2) (by norm_num)⟩

/-! ## C8: the `cancel_order` dispatch -/

theorem startsWithList_iff (ps cs : List Char) :
    startsWithList cs ps = true ↔ ∃ rest, cs = ps ++ rest := by
  induction ps generalizing cs with
  | nil =>
    simp only [startsWithList, List.nil_append, true_iff]
    exact ⟨cs, rfl⟩
  | cons p ps ih =>
    cases cs with
    | nil => simp [startsWithList]
    | cons c cs2 =>
      rw [startsWithList, Bool.and_eq_true, decide_eq_true_eq, ih]
      constructor
      · rintro ⟨hc, rest, hr⟩
        exact ⟨rest, by rw [hc, hr, List.cons_append]⟩
      · rintro ⟨rest, hr⟩
        rw [List.cons_append] at hr
        injection hr with h1 h2
        exact ⟨h1, rest, h2⟩

/-- C8 counterexample: the claim says the dispatch tests for the
prefix "STOP." (dot included), but `"STOPX"` — which does not begin
with "STOP." — is routed to stop-order cancellation, because the source
constant `STOPORDER_PREFIX` is `"STOP"` without the dot. -/
theorem cancel_order_dispatch_cex :
    cancel_order_route "STOPX" = CancelRoute.stop ∧
      ¬ ∃ rest, ("STOPX").data = 'S' :: 'T' :: 'O' :: 'P' :: '.' :: rest := by
  constructor
  · decide
  · rintro ⟨rest, h⟩
    have hd : ("STOPX").data = ['S', 'T', 'O', 'P', 'X'] := by decide
    rw [hd] at h
    simp at h

/-- C8 amended: a vt_orderid is routed to stop-order cancellation
exactly when it begins with `"STOP"` (no dot: `STOPORDER_PREFIX` in
`base.rs` is the bare string "STOP"); every other id goes to
limit-order cancellation. -/
theorem cancel_order_dispatch_amended (s : String) :
    cancel_order_route s = CancelRoute.stop ↔
      ∃ rest, s.data = 'S' :: 'T' :: 'O' :: 'P' :: rest := by
  have hd : stopOrderIdHead.data = ['S', 'T', 'O', 'P'] := by decide
  unfold cancel_order_route
  by_cases hb : startsWithList s.data stopOrderIdHead.data = true
  · rw [if_pos hb]
    obtain ⟨rest, hr⟩ := (startsWithList_iff _ _).mp hb
    rw [hd] at hr
    simp only [true_iff]
    exact ⟨rest, hr⟩
  · rw [if_neg hb]
    simp only [reduceCtorEq, false_iff]
    rintro ⟨rest, hr⟩
    exact hb ((startsWithList_iff _ _).mpr ⟨rest, by rw [hd, hr]; rfl⟩)

/-! ## C10: cancelling a missing id is a silent no-op -/

/-- C10: cancelling an order id that is not in the corresponding active
map leaves the whole engine state (including the callback log)
unchanged, and cancelling twice equals cancelling once. -/
theorem cancel_missing_noop :
    (∀ (e : BacktestingEngine) (k : Nat), k ∉ akeys e.active_limit_orders →
        cancel_limit_order e k = e) ∧
    (∀ (e : BacktestingEngine) (k : Nat), k ∉ akeys e.active_stop_orders →
        cancel_stop_order e k = e) ∧
    (∀ (e : BacktestingEngine) (k : Nat),
        cancel_limit_order (cancel_limit_order e k) k = cancel_limit_order e k) ∧
    (∀ (e : BacktestingEngine) (k : Nat),
        cancel_stop_order (cancel_stop_order e k) k = cancel_stop_order e k) := by
  have h1 : ∀ (e : BacktestingEngine) (k : Nat),
      k ∉ akeys e.active_limit_orders → cancel_limit_order e k = e := by
    intro e k h
    rw [cancel_limit_order, alookup_eq_none.mpr h]
  have h2 : ∀ (e : BacktestingEngine) (k : Nat),
      k ∉ akeys e.active_stop_orders → cancel_stop_order e k = e := by
    intro e k h
    rw [cancel_stop_order, alookup_eq_none.mpr h]
  refine ⟨h1, h2, ?_, ?_⟩
  · intro e k
    cases h : alookup k e.active_limit_orders with
    | none =>
      have he : cancel_limit_order e k = e := by rw [cancel_limit_order, h]
      rw [he, he]
    | some o =>
      have hnone : alookup k (cancel_limit_order e k).active_limit_orders = none := by
        rw [cancel_limit_order, h]
        show alookup k (aremove k e.active_limit_orders) = none
        exact alookup_aremove_self _ _
      conv_lhs => rw [cancel_limit_order, hnone]
  · intro e k
    cases h : alookup k e.active_stop_orders with
    | none =>
      have he : cancel_stop_order e k = e := by rw [cancel_stop_order, h]
      rw [he, he]
    | some s =>
      have hnone : alookup k (cancel_stop_order e k).active_stop_orders = none := by
        rw [cancel_stop_order, h]
        show alookup k (aremove k e.active_stop_orders) = none
        exact alookup_aremove_self _ _
      conv_lhs => rw [cancel_stop_order, hnone]

/-- Witness for C10 on a concrete engine with no active orders. -/
theorem cancel_missing_noop_witness :
    cancel_limit_order (mkEngine .BAR "ETH" .LOCAL) 1 = mkEngine .BAR "ETH" .LOCAL ∧
    cancel_stop_order (mkEngine .BAR "ETH" .LOCAL) 1 = mkEngine .BAR "ETH" .LOCAL :=
  ⟨cancel_missing_noop.1 (mkEngine .BAR "ETH" .LOCAL) 1 (by decide),
   cancel_missing_noop.2.1 (mkEngine .BAR "ETH" .LOCAL) 1 (by decide)⟩

/-! ## C5: the TICK-mode event handler -/

/-- C5 counterexample: `engTick` holds a resting LONG limit order at
120 that is crossable by `tickX` (ask 100 ≤ 120, ask > 0), yet
`new_tick` changes nothing and no trade is produced, contradicting the
claim that a tick event performs the bar-style processing. -/
theorem new_tick_no_fill_cex :
    (∃ p ∈ engTick.active_limit_orders, p.2.direction = Direction.LONG ∧
        tickX.ask_price_1 ≤ p.2.price ∧ 0 < tickX.ask_price_1) ∧
    new_tick engTick (.tick tickX) = engTick ∧
    (new_tick engTick (.tick tickX)).trades = [] := by
  refine ⟨by decide, rfl, by decide⟩

/-- C5 amended: `new_tick` is an unimplemented stub in the source
(`fn new_tick(&mut self, tick: &MixData) {}`): it performs no limit or
stop crossing, invokes no strategy callback and does not update engine
time — for every state and event it returns the state unchanged. -/
theorem new_tick_stub :
    ∀ (e : BacktestingEngine) (m : MixData), new_tick e m = e :=
  fun _ _ => rfl

/-! ## C6: the daily-return column -/

/-- C6 counterexample: with capital 10000 and a single day losing the
whole capital, the ratio `balance/pre_balance` is exactly 0; the claim
says the return is then 0, but the code computes `f64::ln(0) = -inf`
(the guard in the source is `x < 0.0`, not `x ≤ 0.0`). -/
theorem daily_return_zero_ratio_cex :
    returnsCol 10000 [-10000] = [RetVal.negInf] ∧ RetVal.negInf ≠ RetVal.zero := by
  constructor
  · norm_num [returnsCol, balances, pre_balances, return_of_ratio, f64_ln]
  · intro h
    cases h

/-- C6 amended: each entry of the `return` column is
`ln(balance/pre_balance)` when the ratio is strictly positive, the
`f64` value `ln 0 = -inf` when the ratio is exactly 0, and the literal
0 only when the ratio is negative (rows with a nonzero `pre_balance`;
a zero `pre_balance` divides by zero in `f64`). -/
theorem daily_return_formula (capital : ℚ) (netPnls : List ℚ) (r : RetVal)
    (hr : r ∈ returnsCol capital netPnls) :
    ∃ b pb, (b, pb) ∈ List.zip (balances capital netPnls)
        (pre_balances capital netPnls) ∧
      r = return_of_ratio (b / pb) ∧
      (pb ≠ 0 →
        (0 < b / pb → r = RetVal.lnOf (b / pb)) ∧
        (b / pb = 0 → r = RetVal.negInf) ∧
        (b / pb < 0 → r = RetVal.zero)) := by
  obtain ⟨p, hp, hpr⟩ := List.mem_map.mp hr
  refine ⟨p.1, p.2, hp, hpr.symm, ?_⟩
  intro _
  refine ⟨?_, ?_, ?_⟩
  · intro hpos
    rw [← hpr]
    rw [return_of_ratio, if_neg (not_lt.mpr hpos.le), f64_ln,
        if_neg (not_lt.mpr hpos.le), if_neg (ne_of_gt hpos)]
  · intro hzero
    rw [← hpr]
    rw [return_of_ratio, hzero, if_neg (lt_irrefl 0), f64_ln, if_neg (lt_irrefl 0),
        if_pos rfl]
  · intro hneg
    rw [← hpr, return_of_ratio, if_pos hneg]

/-- Witness for C6 with capital 2 and a single net pnl of 2:
the ratio is 2 and the return is `ln 2`. -/
theorem daily_return_formula_witness :
    ∃ b pb, (b, pb) ∈ List.zip (balances 2 [2]) (pre_balances 2 [2]) ∧
      RetVal.lnOf 2 = return_of_ratio (b / pb) ∧
      (pb ≠ 0 →
        (0 < b / pb → RetVal.lnOf 2 = RetVal.lnOf (b / pb)) ∧
        (b / pb = 0 → RetVal.lnOf 2 = RetVal.negInf) ∧
        (b / pb < 0 → RetVal.lnOf 2 = RetVal.zero)) :=
  daily_return_formula 2 [2] (RetVal.lnOf 2)
    (by norm_num [returnsCol, balances, pre_balances, return_of_ratio, f64_ln])

/-! ## C2: vt_symbol parsing -/

theorem breakAtDot_append (a b : List Char) (h : '.' ∉ a) :
    breakAtDot (a ++ '.' :: b) = some (a, b) := by
  induction a with
  | nil => simp [breakAtDot]
  | cons c a ih =>
    have hc : ¬ c = '.' := fun hc => h (by simp [hc])
    have ha : '.' ∉ a := fun hm => h (List.mem_cons_of_mem _ hm)
    rw [List.cons_append, breakAtDot, if_neg hc, ih ha]

theorem breakAtDot_none_eq (b : List Char) (h : breakAtDot b = none) :
    List.takeWhile (fun c => !(c = '.' : Bool)) b = b := by
  induction b with
  | nil => rfl
  | cons c bs ih =>
    by_cases hc : c = '.'
    · rw [breakAtDot, if_pos hc] at h
      cases h
    · rw [breakAtDot, if_neg hc] at h
      cases hb : breakAtDot bs with
      | none =>
        simp only [List.takeWhile_cons, hc, decide_False, Bool.not_false,
          if_pos]
        rw [ih hb]
      | some p =>
        rw [hb] at h
        cases h

theorem breakAtDot_some_fst (b : List Char) (x y : List Char)
    (h : breakAtDot b = some (x, y)) :
    x = List.takeWhile (fun c => !(c = '.' : Bool)) b := by
  induction b generalizing x y with
  | nil => cases h
  | cons c bs ih =>
    by_cases hc : c = '.'
    · rw [breakAtDot, if_pos hc] at h
      injection h with h
      injection h with h1 h2
      simp only [List.takeWhile_cons, hc, decide_True, Bool.not_true,
        Bool.false_eq_true, if_neg, if_false]
      rw [← h1]
    · rw [breakAtDot, if_neg hc] at h
      cases hb : breakAtDot bs with
      | none =>
        rw [hb] at h
        cases h
      | some p =>
        rw [hb] at h
        obtain ⟨p1, p2⟩ := p
        injection h with h
        injection h with h1 h2
        simp only [List.takeWhile_cons, hc, decide_False, Bool.not_false,
          if_pos]
        rw [← h1, ih p1 p2 hb]

/-- C2 counterexample: for the two-dot input `"a.b.LOCAL"` the claim
says both parsers yield symbol `"a.b"`; `extract_vt_symbol` does, but
`set_parameters` takes `v[0] = "a"` as the symbol and tries to parse
`v[1] = "b"` as the exchange, which panics (modelled as `none`). -/
theorem set_parameters_last_dot_cex :
    set_parameters_parse "a.b.LOCAL" = none ∧
    set_parameters_parse "a.b.LOCAL" ≠
      some ("a.b", Exchange.LOCAL) ∧
    extract_vt_symbol "a.b.LOCAL" = some ("a.b", Exchange.LOCAL) := by
  refine ⟨by decide, by decide, by decide⟩

/-- C2 amended: `extract_vt_symbol` (used by the `load_bar` callback)
splits on the last dot — symbol is everything before the final dot,
exchange parsed from everything after it — but `set_parameters` splits
on the first dot: the symbol is everything before the first dot and the
exchange is parsed from the text between the first and second dots. -/
theorem vt_symbol_split :
    (∀ a b : List Char, '.' ∉ b →
      extract_vt_symbol (String.mk (a ++ '.' :: b)) =
        (Exchange.fromStr (String.mk b)).map (fun ex => (String.mk a, ex))) ∧
    (∀ a b : List Char, '.' ∉ a →
      set_parameters_parse (String.mk (a ++ '.' :: b)) =
        (Exchange.fromStr
            (String.mk (List.takeWhile (fun c => !(c = '.' : Bool)) b))).map
          (fun ex => (String.mk a, ex))) := by
  constructor
  · intro a b hb
    rw [extract_vt_symbol]
    have hrev : (String.mk (a ++ '.' :: b)).data.reverse =
        b.reverse ++ '.' :: a.reverse := by
      show (a ++ '.' :: b).reverse = b.reverse ++ '.' :: a.reverse
      rw [List.reverse_append, List.reverse_cons, List.append_assoc,
          List.singleton_append]
    rw [hrev, breakAtDot_append _ _ (fun hm => hb (List.mem_reverse.mp hm))]
    simp only [List.reverse_reverse]
  · intro a b ha
    rw [set_parameters_parse]
    rw [show (String.mk (a ++ '.' :: b)).data = a ++ '.' :: b from rfl]
    rw [breakAtDot_append _ _ ha]
    cases hb : breakAtDot b with
    | none =>
      simp only [hb]
      rw [breakAtDot_none_eq b hb]
    | some p =>
      obtain ⟨p1, p2⟩ := p
      simp only [hb]
      rw [← breakAtDot_some_fst b p1 p2 hb]

/-! ## Engine-step lemmas

These characterise how one iteration of the crossing loops transforms
the engine state, and that each entry point preserves `EngInv`. -/

theorem aupdate_aupdate_self {κ α : Type} [DecidableEq κ] (k : κ)
    (v1 v2 : α) (l : List (κ × α)) :
    aupdate k v2 (aupdate k v1 l) = aupdate k v2 l := by
  induction l with
  | nil => rfl
  | cons p rest ih =>
    by_cases h : p.1 = k <;> simp [aupdate_cons, h, ih]

theorem avalues_append_single {κ α : Type} (l : List (κ × α)) (k : κ)
    (v : α) : avalues (l ++ [(k, v)]) = avalues l ++ [v] := by
  simp [avalues]

/-- `EngInv` is preserved by the state transition of a limit-order fill:
the order at key `knot` is overwritten by its filled version `o1` in
both maps (and possibly dropped from the active map), one trade with the
next trade id is recorded, and the position moves by the signed
volume. -/
theorem fill_inv (e : BacktestingEngine) (knot : Nat) (o0 o1 : OrderData)
    (cb : List Callback) (tp pc : ℚ) (A2 : List (Nat × OrderData))
    (halk : alookup knot e.limit_orders = some o0)
    (hid : o1.orderid = o0.orderid) (hdir : o1.direction = o0.direction)
    (hvol : o1.volume = o0.volume)
    (hpc : (o1.direction = Direction.LONG ∧ pc = o1.volume) ∨
           (o1.direction ≠ Direction.LONG ∧ pc = -o1.volume))
    (hA2 : A2 = aremove knot (aupdate knot o1 e.active_limit_orders) ∨
           A2 = aupdate knot o1 e.active_limit_orders)
    (hinv : EngInv e) :
    EngInv { mode := e.mode, symbol := e.symbol, exchange := e.exchange,
             bar := e.bar, tick := e.tick, datetime := e.datetime,
             stop_order_count := e.stop_order_count,
             stop_orders := e.stop_orders,
             active_stop_orders := e.active_stop_orders,
             limit_order_count := e.limit_order_count,
             limit_orders := aupdate knot o1 e.limit_orders,
             active_limit_orders := A2,
             trade_count := e.trade_count + 1,
             trades := ainsert (e.trade_count + 1)
               { symbol := o1.symbol, exchange := o1.exchange,
                 orderid := o1.orderid, tradeid := e.trade_count + 1,
                 direction := o1.direction, offset := o1.offset, price := tp,
                 volume := o1.volume, datetime := e.datetime } e.trades,
             pos := e.pos + pc, callbacks := cb,
             daily_results := e.daily_results } := by
  refine ⟨?_, ?_, ?_, ?_, ?_, ?_, ?_, ?_, ?_, ?_, ?_, ?_⟩
  · show e.pos + pc = posSum (ainsert (e.trade_count + 1) _ e.trades)
    rw [posSum_ainsert_fresh hinv.trade_bound, ← hinv.pos_eq]
    rcases hpc with ⟨hL, hpc⟩ | ⟨hN, hpc⟩
    · simp [signedVolume, hL, hpc]
    · simp [signedVolume, hN, hpc]
  · intro t ht
    rcases avalues_ainsert_subset ht with rfl | hold
    · exact ⟨o1, mem_avalues_aupdate_self o1 (mem_akeys_of_alookup halk),
        rfl, rfl, rfl⟩
    · exact trade_order_aupdate o1 hinv.limit_nodup halk hid hdir hvol
        hinv.trade_order t hold
  · show (akeys (aupdate knot o1 e.limit_orders)).Nodup
    rw [akeys_aupdate]
    exact hinv.limit_nodup
  · show ∀ k ∈ akeys (aupdate knot o1 e.limit_orders), k ≤ e.limit_order_count
    rw [akeys_aupdate]
    exact hinv.limit_bound
  · have base := active_sub_aupdate_both o1 hinv.active_sub halk
    rcases hA2 with rfl | rfl
    · intro p hp
      exact base p (mem_aremove_iff.mp hp).1
    · exact base
  · rcases hA2 with rfl | rfl
    · refine nodup_akeys_aremove _ ?_
      rw [akeys_aupdate]
      exact hinv.active_nodup
    · show (akeys (aupdate knot o1 e.active_limit_orders)).Nodup
      rw [akeys_aupdate]
      exact hinv.active_nodup
  · exact hinv.stop_nodup
  · exact hinv.stop_bound
  · exact hinv.active_stop_sub
  · exact hinv.active_stop_nodup
  · intro k hk
    show k ≤ e.trade_count + 1
    rcases akeys_ainsert_subset hk with rfl | hold
    · exact le_refl _
    · exact le_trans (hinv.trade_bound _ hold) (Nat.le_succ _)
  · intro t ht
    show t.tradeid ≤ e.trade_count + 1
    rcases avalues_ainsert_subset ht with rfl | hold
    · exact le_refl _
    · exact le_trans (hinv.tradeid_bound _ hold) (Nat.le_succ _)

/-- `EngInv` is preserved by overwriting the order at key `knot` in
both limit maps with a version `o1` that has the same id, direction and
volume (the SUBMITTING → NOTTRADED transition). -/
theorem update_only_inv (e : BacktestingEngine) (knot : Nat)
    (o0 o1 : OrderData) (cb : List Callback)
    (halk : alookup knot e.limit_orders = some o0)
    (hid : o1.orderid = o0.orderid) (hdir : o1.direction = o0.direction)
    (hvol : o1.volume = o0.volume)
    (hinv : EngInv e) :
    EngInv { mode := e.mode, symbol := e.symbol, exchange := e.exchange,
             bar := e.bar, tick := e.tick, datetime := e.datetime,
             stop_order_count := e.stop_order_count,
             stop_orders := e.stop_orders,
             active_stop_orders := e.active_stop_orders,
             limit_order_count := e.limit_order_count,
             limit_orders := aupdate knot o1 e.limit_orders,
             active_limit_orders := aupdate knot o1 e.active_limit_orders,
             trade_count := e.trade_count, trades := e.trades,
             pos := e.pos, callbacks := cb,
             daily_results := e.daily_results } := by
  refine ⟨hinv.pos_eq, ?_, ?_, ?_, ?_, ?_, hinv.stop_nodup, hinv.stop_bound,
    hinv.active_stop_sub, hinv.active_stop_nodup, hinv.trade_bound,
    hinv.tradeid_bound⟩
  · exact trade_order_aupdate o1 hinv.limit_nodup halk hid hdir hvol
      hinv.trade_order
  · show (akeys (aupdate knot o1 e.limit_orders)).Nodup
    rw [akeys_aupdate]
    exact hinv.limit_nodup
  · show ∀ k ∈ akeys (aupdate knot o1 e.limit_orders), k ≤ e.limit_order_count
    rw [akeys_aupdate]
    exact hinv.limit_bound
  · exact active_sub_aupdate_both o1 hinv.active_sub halk
  · show (akeys (aupdate knot o1 e.active_limit_orders)).Nodup
    rw [akeys_aupdate]
    exact hinv.active_nodup

/-- One iteration of the `cross_limit_order` loop preserves `EngInv`,
provided the history map indeed stores the snapshot order. -/
theorem crossLimitStep_inv (pr : CrossPrices) (e : BacktestingEngine)
    (knot : Nat) (o0 : OrderData)
    (halk : alookup knot e.limit_orders = some o0)
    (hinv : EngInv e) : EngInv (crossLimitStep pr e (knot, o0)) := by
  by_cases hs : o0.status = Status.SUBMITTING
  · rw [crossLimitStep, if_pos hs, if_pos hs]
    by_cases hc : ((o0.direction = Direction.LONG ∧
          pr.long_cross_price ≤ o0.price ∧ 0 < pr.long_cross_price) ∨
        (o0.direction = Direction.SHORT ∧
          o0.price ≤ pr.short_cross_price ∧ 0 < pr.short_cross_price))
    · rw [if_pos hc]
      simp only [emit, aupdate_aupdate_self]
      by_cases hl : (o0.direction = Direction.LONG ∧
          pr.long_cross_price ≤ o0.price ∧ 0 < pr.long_cross_price)
      · rw [if_pos hl, if_pos hl]
        split_ifs with hcont
        · exact fill_inv e knot o0 _ _ _ _ _ halk rfl rfl rfl
            (Or.inl ⟨hl.1, rfl⟩) (Or.inl rfl) hinv
        · exact fill_inv e knot o0 _ _ _ _ _ halk rfl rfl rfl
            (Or.inl ⟨hl.1, rfl⟩) (Or.inr rfl) hinv
      · rw [if_neg hl, if_neg hl]
        have hsh := hc.resolve_left hl
        have hne : o0.direction ≠ Direction.LONG := by
          rw [hsh.1]
          intro hd
          cases hd
        split_ifs with hcont
        · exact fill_inv e knot o0 _ _ _ _ _ halk rfl rfl rfl
            (Or.inr ⟨hne, rfl⟩) (Or.inl rfl) hinv
        · exact fill_inv e knot o0 _ _ _ _ _ halk rfl rfl rfl
            (Or.inr ⟨hne, rfl⟩) (Or.inr rfl) hinv
    · rw [if_neg hc]
      simp only [emit]
      exact update_only_inv e knot o0 _ _ halk rfl rfl rfl hinv
  · rw [crossLimitStep, if_neg hs, if_neg hs]
    by_cases hc : ((o0.direction = Direction.LONG ∧
          pr.long_cross_price ≤ o0.price ∧ 0 < pr.long_cross_price) ∨
        (o0.direction = Direction.SHORT ∧
          o0.price ≤ pr.short_cross_price ∧ 0 < pr.short_cross_price))
    · rw [if_pos hc]
      simp only [emit]
      by_cases hl : (o0.direction = Direction.LONG ∧
          pr.long_cross_price ≤ o0.price ∧ 0 < pr.long_cross_price)
      · rw [if_pos hl, if_pos hl]
        split_ifs with hcont
        · exact fill_inv e knot o0 _ _ _ _ _ halk rfl rfl rfl
            (Or.inl ⟨hl.1, rfl⟩) (Or.inl rfl) hinv
        · exact fill_inv e knot o0 _ _ _ _ _ halk rfl rfl rfl
            (Or.inl ⟨hl.1, rfl⟩) (Or.inr rfl) hinv
      · rw [if_neg hl, if_neg hl]
        have hsh := hc.resolve_left hl
        have hne : o0.direction ≠ Direction.LONG := by
          rw [hsh.1]
          intro hd
          cases hd
        split_ifs with hcont
        · exact fill_inv e knot o0 _ _ _ _ _ halk rfl rfl rfl
            (Or.inr ⟨hne, rfl⟩) (Or.inl rfl) hinv
        · exact fill_inv e knot o0 _ _ _ _ _ halk rfl rfl rfl
            (Or.inr ⟨hne, rfl⟩) (Or.inr rfl) hinv
    · rw [if_neg hc]
      exact hinv

/-- `EngInv` is preserved by the state transition of a stop-order
trigger: a fresh, fully-filled limit order is appended to the history
map only, one trade with the next trade id is recorded, the stop is
overwritten by `stop1` in both stop maps (and possibly dropped from the
active map), and the position moves by the signed volume. -/
theorem spawn_inv (e : BacktestingEngine) (knot : Nat) (s0 : StopOrder)
    (stop1 : StopOrder) (cb : List Callback) (tp pc : ℚ)
    (S2 : List (Nat × StopOrder))
    (halk : alookup knot e.stop_orders = some s0)
    (hpc : (s0.direction = Direction.LONG ∧ pc = s0.volume) ∨
           (s0.direction ≠ Direction.LONG ∧ pc = -s0.volume))
    (hS2 : S2 = aremove knot (aupdate knot stop1 e.active_stop_orders) ∨
           S2 = aupdate knot stop1 e.active_stop_orders)
    (hinv : EngInv e) :
    EngInv { mode := e.mode, symbol := e.symbol, exchange := e.exchange,
             bar := e.bar, tick := e.tick, datetime := e.datetime,
             stop_order_count := e.stop_order_count,
             stop_orders := aupdate knot stop1 e.stop_orders,
             active_stop_orders := S2,
             limit_order_count := e.limit_order_count + 1,
             limit_orders := ainsert (e.limit_order_count + 1)
               { symbol := e.symbol, exchange := e.exchange,
                 orderid := e.limit_order_count + 1,
                 direction := s0.direction, offset := s0.offset,
                 price := s0.price, volume := s0.volume,
                 traded := s0.volume, status := Status.ALLTRADED,
                 datetime := e.datetime } e.limit_orders,
             active_limit_orders := e.active_limit_orders,
             trade_count := e.trade_count + 1,
             trades := ainsert (e.trade_count + 1)
               { symbol := e.symbol, exchange := e.exchange,
                 orderid := e.limit_order_count + 1,
                 tradeid := e.trade_count + 1, direction := s0.direction,
                 offset := s0.offset, price := tp, volume := s0.volume,
                 datetime := e.datetime } e.trades,
             pos := e.pos + pc, callbacks := cb,
             daily_results := e.daily_results } := by
  have hfresh : (e.limit_order_count + 1) ∉ akeys e.limit_orders :=
    fun h => absurd (hinv.limit_bound _ h) (by omega)
  refine ⟨?_, ?_, ?_, ?_, ?_, hinv.active_nodup, ?_, ?_, ?_, ?_, ?_, ?_⟩
  · show e.pos + pc = posSum (ainsert (e.trade_count + 1) _ e.trades)
    rw [posSum_ainsert_fresh hinv.trade_bound, ← hinv.pos_eq]
    rcases hpc with ⟨hL, hpc⟩ | ⟨hN, hpc⟩
    · simp [signedVolume, hL, hpc]
    · simp [signedVolume, hN, hpc]
  · intro t ht
    rcases avalues_ainsert_subset ht with rfl | hold
    · exact ⟨_, self_mem_avalues_ainsert _ _ _, rfl, rfl, rfl⟩
    · obtain ⟨o, ho, hm⟩ := hinv.trade_order t hold
      refine ⟨o, ?_, hm⟩
      rw [ainsert_of_not_mem _ hfresh, avalues_append_single]
      exact List.mem_append_left _ ho
  · exact nodup_akeys_ainsert _ _ hinv.limit_nodup
  · intro k hk
    show k ≤ e.limit_order_count + 1
    rcases akeys_ainsert_subset hk with rfl | hold
    · exact le_refl _
    · exact le_trans (hinv.limit_bound _ hold) (Nat.le_succ _)
  · intro p hp
    have h0 := hinv.active_sub p hp
    have hkey := mem_akeys_of_alookup h0
    have hne : (e.limit_order_count + 1) ≠ p.1 := by
      intro heq
      have := hinv.limit_bound _ hkey
      omega
    show alookup p.1 (ainsert (e.limit_order_count + 1) _ e.limit_orders) =
      some p.2
    rw [alookup_ainsert_ne _ _ hne]
    exact h0
  · show (akeys (aupdate knot stop1 e.stop_orders)).Nodup
    rw [akeys_aupdate]
    exact hinv.stop_nodup
  · show ∀ k ∈ akeys (aupdate knot stop1 e.stop_orders),
      k ≤ e.stop_order_count
    rw [akeys_aupdate]
    exact hinv.stop_bound
  · have base := active_sub_aupdate_both stop1 hinv.active_stop_sub halk
    rcases hS2 with rfl | rfl
    · intro p hp
      exact base p (mem_aremove_iff.mp hp).1
    · exact base
  · rcases hS2 with rfl | rfl
    · refine nodup_akeys_aremove _ ?_
      rw [akeys_aupdate]
      exact hinv.active_stop_nodup
    · show (akeys (aupdate knot stop1 e.active_stop_orders)).Nodup
      rw [akeys_aupdate]
      exact hinv.active_stop_nodup
  · intro k hk
    show k ≤ e.trade_count + 1
    rcases akeys_ainsert_subset hk with rfl | hold
    · exact le_refl _
    · exact le_trans (hinv.trade_bound _ hold) (Nat.le_succ _)
  · intro t ht
    show t.tradeid ≤ e.trade_count + 1
    rcases avalues_ainsert_subset ht with rfl | hold
    · exact le_refl _
    · exact le_trans (hinv.tradeid_bound _ hold) (Nat.le_succ _)

/-- One iteration of the `cross_stop_order` loop preserves `EngInv`,
provided the history map indeed stores the snapshot stop order. -/
theorem crossStopStep_inv (pr : CrossPrices) (e : BacktestingEngine)
    (knot : Nat) (s0 : StopOrder)
    (halk : alookup knot e.stop_orders = some s0)
    (hinv : EngInv e) : EngInv (crossStopStep pr e (knot, s0)) := by
  rw [crossStopStep]
  by_cases hc : ((s0.direction = Direction.LONG ∧
        s0.price ≤ pr.long_cross_price) ∨
      (s0.direction = Direction.SHORT ∧ pr.short_cross_price ≤ s0.price))
  · rw [if_pos hc]
    simp only [emit]
    by_cases hl : (s0.direction = Direction.LONG ∧
        s0.price ≤ pr.long_cross_price)
    · rw [if_pos hl, if_pos hl]
      split_ifs with hcont
      · exact spawn_inv e knot s0 _ _ _ _ _ halk (Or.inl ⟨hl.1, rfl⟩)
          (Or.inl rfl) hinv
      · exact spawn_inv e knot s0 _ _ _ _ _ halk (Or.inl ⟨hl.1, rfl⟩)
          (Or.inr rfl) hinv
    · rw [if_neg hl, if_neg hl]
      have hsh := hc.resolve_left hl
      have hne : s0.direction ≠ Direction.LONG := by
        rw [hsh.1]
        intro hd
        cases hd
      split_ifs with hcont
      · exact spawn_inv e knot s0 _ _ _ _ _ halk (Or.inr ⟨hne, rfl⟩)
          (Or.inl rfl) hinv
      · exact spawn_inv e knot s0 _ _ _ _ _ halk (Or.inr ⟨hne, rfl⟩)
          (Or.inr rfl) hinv
  · rw [if_neg hc]
    exact hinv

theorem alookup_append_single_self {κ α : Type} [DecidableEq κ] {k : κ}
    (v : α) {l : List (κ × α)} (h : k ∉ akeys l) :
    alookup k (l ++ [(k, v)]) = some v := by
  induction l with
  | nil => simp [alookup]
  | cons p rest ih =>
    have hp : p.1 ≠ k := by
      intro hpk
      exact h (by rw [← hpk]; exact List.mem_map.mpr ⟨p, List.mem_cons_self _ _, rfl⟩)
    rw [List.cons_append, alookup_cons, if_neg hp]
    exact ih (fun hm => h (List.mem_cons_of_mem _ hm))

theorem alookup_ainsert_self {κ α : Type} [DecidableEq κ] (k : κ) (v : α)
    (l : List (κ × α)) : alookup k (ainsert k v l) = some v := by
  rw [ainsert]
  by_cases hc : acontains k l
  · rw [if_pos hc]
    exact alookup_aupdate_self v (acontains_iff.mp hc)
  · rw [if_neg hc]
    exact alookup_append_single_self v (fun hm => hc (acontains_iff.mpr hm))

/-- `EngInv` only depends on the listed fields. -/
theorem EngInv_frame {e f : BacktestingEngine} (hinv : EngInv e)
    (hpos : f.pos = e.pos) (htr : f.trades = e.trades)
    (hlo : f.limit_orders = e.limit_orders)
    (hloc : f.limit_order_count = e.limit_order_count)
    (hal : f.active_limit_orders = e.active_limit_orders)
    (hso : f.stop_orders = e.stop_orders)
    (hsoc : f.stop_order_count = e.stop_order_count)
    (has : f.active_stop_orders = e.active_stop_orders)
    (htc : f.trade_count = e.trade_count) : EngInv f := by
  refine ⟨?_, ?_, ?_, ?_, ?_, ?_, ?_, ?_, ?_, ?_, ?_, ?_⟩
  · rw [hpos, htr]
    exact hinv.pos_eq
  · rw [htr, hlo]
    exact hinv.trade_order
  · rw [hlo]
    exact hinv.limit_nodup
  · rw [hlo, hloc]
    exact hinv.limit_bound
  · rw [hal, hlo]
    exact hinv.active_sub
  · rw [hal]
    exact hinv.active_nodup
  · rw [hso]
    exact hinv.stop_nodup
  · rw [hso, hsoc]
    exact hinv.stop_bound
  · rw [has, hso]
    exact hinv.active_stop_sub
  · rw [has]
    exact hinv.active_stop_nodup
  · rw [htr, htc]
    exact hinv.trade_bound
  · rw [htr, htc]
    exact hinv.tradeid_bound

/-- A loop iteration of `cross_limit_order` touches no limit-map key
other than the one of its snapshot entry. -/
theorem crossLimitStep_alookup_ne (pr : CrossPrices) (e : BacktestingEngine)
    (p : Nat × OrderData) (K : Nat) (h : p.1 ≠ K) :
    alookup K (crossLimitStep pr e p).limit_orders =
      alookup K e.limit_orders ∧
    alookup K (crossLimitStep pr e p).active_limit_orders =
      alookup K e.active_limit_orders := by
  have h1 : ∀ (v : OrderData) (l : List (Nat × OrderData)),
      alookup K (aupdate p.1 v l) = alookup K l :=
    fun v l => alookup_aupdate_ne v l h
  have h2 : ∀ (l : List (Nat × OrderData)),
      alookup K (aremove p.1 l) = alookup K l :=
    fun l => alookup_aremove_ne l h
  rw [crossLimitStep]
  split_ifs <;> simp [emit, apply_ite, h1, h2]

/-- A loop iteration of `cross_stop_order` touches no stop-map key
other than the one of its snapshot entry. -/
theorem crossStopStep_alookup_ne (pr : CrossPrices) (e : BacktestingEngine)
    (p : Nat × StopOrder) (K : Nat) (h : p.1 ≠ K) :
    alookup K (crossStopStep pr e p).stop_orders =
      alookup K e.stop_orders := by
  have h1 : ∀ (v : StopOrder) (l : List (Nat × StopOrder)),
      alookup K (aupdate p.1 v l) = alookup K l :=
    fun v l => alookup_aupdate_ne v l h
  have h2 : ∀ (l : List (Nat × StopOrder)),
      alookup K (aremove p.1 l) = alookup K l :=
    fun l => alookup_aremove_ne l h
  rw [crossStopStep]
  split_ifs <;> simp [emit, apply_ite, h1, h2]

theorem foldl_crossLimitStep_inv (pr : CrossPrices) :
    ∀ (l : List (Nat × OrderData)) (e : BacktestingEngine), EngInv e →
      (∀ p ∈ l, alookup p.1 e.limit_orders = some p.2) → (akeys l).Nodup →
      EngInv (l.foldl (crossLimitStep pr) e)
  | [], e, hinv, _, _ => hinv
  | p :: rest, e, hinv, hsub, hnd => by
    rw [List.foldl_cons]
    have hnd2 : p.1 ∉ akeys rest ∧ (akeys rest).Nodup := by
      have : (p.1 :: akeys rest).Nodup := hnd
      exact ⟨(List.nodup_cons.mp this).1, (List.nodup_cons.mp this).2⟩
    refine foldl_crossLimitStep_inv pr rest _ ?_ ?_ hnd2.2
    · exact crossLimitStep_inv pr e p.1 p.2
        (hsub p (List.mem_cons_self _ _)) hinv
    · intro q hq
      have hne : q.1 ≠ p.1 := by
        intro hqp
        exact hnd2.1 (hqp ▸ List.mem_map.mpr ⟨q, hq, rfl⟩)
      rw [(crossLimitStep_alookup_ne pr e p q.1 (fun hpk => hne hpk.symm)).1]
      exact hsub q (List.mem_cons_of_mem _ hq)

theorem foldl_crossStopStep_inv (pr : CrossPrices) :
    ∀ (l : List (Nat × StopOrder)) (e : BacktestingEngine), EngInv e →
      (∀ p ∈ l, alookup p.1 e.stop_orders = some p.2) → (akeys l).Nodup →
      EngInv (l.foldl (crossStopStep pr) e)
  | [], e, hinv, _, _ => hinv
  | p :: rest, e, hinv, hsub, hnd => by
    rw [List.foldl_cons]
    have hnd2 : p.1 ∉ akeys rest ∧ (akeys rest).Nodup := by
      have : (p.1 :: akeys rest).Nodup := hnd
      exact ⟨(List.nodup_cons.mp this).1, (List.nodup_cons.mp this).2⟩
    refine foldl_crossStopStep_inv pr rest _ ?_ ?_ hnd2.2
    · exact crossStopStep_inv pr e p.1 p.2
        (hsub p (List.mem_cons_self _ _)) hinv
    · intro q hq
      have hne : q.1 ≠ p.1 := by
        intro hqp
        exact hnd2.1 (hqp ▸ List.mem_map.mpr ⟨q, hq, rfl⟩)
      rw [crossStopStep_alookup_ne pr e p q.1 (fun hpk => hne hpk.symm)]
      exact hsub q (List.mem_cons_of_mem _ hq)

theorem cross_limit_order_inv (e : BacktestingEngine) (hinv : EngInv e) :
    EngInv (cross_limit_order e) :=
  foldl_crossLimitStep_inv _ _ _ hinv hinv.active_sub hinv.active_nodup

theorem cross_stop_order_inv (e : BacktestingEngine) (hinv : EngInv e) :
    EngInv (cross_stop_order e) :=
  foldl_crossStopStep_inv _ _ _ hinv hinv.active_stop_sub
    hinv.active_stop_nodup

theorem send_limit_order_inv (e : BacktestingEngine) (d : Direction)
    (o : Offset) (price volume : ℚ) (hinv : EngInv e) :
    EngInv (send_limit_order e d o price volume).1 := by
  rw [send_limit_order]
  have hfresh : (e.limit_order_count + 1) ∉ akeys e.limit_orders :=
    fun h => absurd (hinv.limit_bound _ h) (by omega)
  have hfreshA : (e.limit_order_count + 1) ∉ akeys e.active_limit_orders := by
    intro h
    obtain ⟨v, hv⟩ := alookup_of_mem_akeys h
    exact hfresh (mem_akeys_of_alookup ((hinv.active_sub _ (alookup_mem hv))))
  refine ⟨hinv.pos_eq, ?_, ?_, ?_, ?_, ?_, hinv.stop_nodup, hinv.stop_bound,
    hinv.active_stop_sub, hinv.active_stop_nodup, hinv.trade_bound,
    hinv.tradeid_bound⟩
  · intro t ht
    obtain ⟨w, hw, hm⟩ := hinv.trade_order t ht
    refine ⟨w, ?_, hm⟩
    show w ∈ avalues (ainsert (e.limit_order_count + 1) _ e.limit_orders)
    rw [ainsert_of_not_mem _ hfresh, avalues_append_single]
    exact List.mem_append_left _ hw
  · exact nodup_akeys_ainsert _ _ hinv.limit_nodup
  · intro k hk
    show k ≤ e.limit_order_count + 1
    rcases akeys_ainsert_subset hk with rfl | hold
    · exact le_refl _
    · exact le_trans (hinv.limit_bound _ hold) (Nat.le_succ _)
  · intro p hp
    show alookup p.1 (ainsert (e.limit_order_count + 1) _ e.limit_orders) =
      some p.2
    rw [ainsert_of_not_mem _ hfreshA] at hp
    rcases List.mem_append.mp hp with hp | hp
    · have h0 := hinv.active_sub p hp
      have hne : (e.limit_order_count + 1) ≠ p.1 := by
        intro heq
        have := hinv.limit_bound _ (mem_akeys_of_alookup h0)
        omega
      rw [alookup_ainsert_ne _ _ hne]
      exact h0
    · rw [List.mem_singleton] at hp
      rw [hp]
      exact alookup_ainsert_self _ _ _
  · show (akeys (ainsert (e.limit_order_count + 1) _
      e.active_limit_orders)).Nodup
    exact nodup_akeys_ainsert _ _ hinv.active_nodup

theorem send_stop_order_inv (e : BacktestingEngine) (d : Direction)
    (o : Offset) (price volume : ℚ) (hinv : EngInv e) :
    EngInv (send_stop_order e d o price volume).1 := by
  rw [send_stop_order]
  have hfresh : (e.stop_order_count + 1) ∉ akeys e.stop_orders :=
    fun h => absurd (hinv.stop_bound _ h) (by omega)
  have hfreshA : (e.stop_order_count + 1) ∉ akeys e.active_stop_orders := by
    intro h
    obtain ⟨v, hv⟩ := alookup_of_mem_akeys h
    exact hfresh (mem_akeys_of_alookup ((hinv.active_stop_sub _ (alookup_mem hv))))
  refine ⟨hinv.pos_eq, hinv.trade_order, hinv.limit_nodup, hinv.limit_bound,
    hinv.active_sub, hinv.active_nodup, ?_, ?_, ?_, ?_, hinv.trade_bound,
    hinv.tradeid_bound⟩
  · exact nodup_akeys_ainsert _ _ hinv.stop_nodup
  · intro k hk
    show k ≤ e.stop_order_count + 1
    rcases akeys_ainsert_subset hk with rfl | hold
    · exact le_refl _
    · exact le_trans (hinv.stop_bound _ hold) (Nat.le_succ _)
  · intro p hp
    show alookup p.1 (ainsert (e.stop_order_count + 1) _ e.stop_orders) =
      some p.2
    rw [ainsert_of_not_mem _ hfreshA] at hp
    rcases List.mem_append.mp hp with hp | hp
    · have h0 := hinv.active_stop_sub p hp
      have hne : (e.stop_order_count + 1) ≠ p.1 := by
        intro heq
        have := hinv.stop_bound _ (mem_akeys_of_alookup h0)
        omega
      rw [alookup_ainsert_ne _ _ hne]
      exact h0
    · rw [List.mem_singleton] at hp
      rw [hp]
      exact alookup_ainsert_self _ _ _
  · show (akeys (ainsert (e.stop_order_count + 1) _
      e.active_stop_orders)).Nodup
    exact nodup_akeys_ainsert _ _ hinv.active_stop_nodup

theorem cancel_limit_order_inv (e : BacktestingEngine) (k : Nat)
    (hinv : EngInv e) : EngInv (cancel_limit_order e k) := by
  rw [cancel_limit_order]
  cases h : alookup k e.active_limit_orders with
  | none => exact hinv
  | some o =>
    have halk : alookup k e.limit_orders = some o := by
      have := hinv.active_sub (k, o) (alookup_mem h)
      exact this
    simp only [emit]
    refine ⟨hinv.pos_eq, ?_, ?_, ?_, ?_, ?_, hinv.stop_nodup,
      hinv.stop_bound, hinv.active_stop_sub, hinv.active_stop_nodup,
      hinv.trade_bound, hinv.tradeid_bound⟩
    · exact trade_order_aupdate { o with status := Status.CANCELLED }
        hinv.limit_nodup halk rfl rfl rfl hinv.trade_order
    · show (akeys (aupdate k _ e.limit_orders)).Nodup
      rw [akeys_aupdate]
      exact hinv.limit_nodup
    · show ∀ k2 ∈ akeys (aupdate k _ e.limit_orders),
        k2 ≤ e.limit_order_count
      rw [akeys_aupdate]
      exact hinv.limit_bound
    · intro p hp
      obtain ⟨hpA, hpk⟩ := mem_aremove_iff.mp hp
      rw [alookup_aupdate_ne _ _ (fun hk2 => hpk hk2.symm)]
      exact hinv.active_sub p hpA
    · exact nodup_akeys_aremove _ hinv.active_nodup

theorem cancel_stop_order_inv (e : BacktestingEngine) (k : Nat)
    (hinv : EngInv e) : EngInv (cancel_stop_order e k) := by
  rw [cancel_stop_order]
  cases h : alookup k e.active_stop_orders with
  | none => exact hinv
  | some s =>
    have halk : alookup k e.stop_orders = some s :=
      hinv.active_stop_sub (k, s) (alookup_mem h)
    simp only [emit]
    refine ⟨hinv.pos_eq, hinv.trade_order, hinv.limit_nodup,
      hinv.limit_bound, hinv.active_sub, hinv.active_nodup, ?_, ?_, ?_, ?_,
      hinv.trade_bound, hinv.tradeid_bound⟩
    · show (akeys (aupdate k _ e.stop_orders)).Nodup
      rw [akeys_aupdate]
      exact hinv.stop_nodup
    · show ∀ k2 ∈ akeys (aupdate k _ e.stop_orders), k2 ≤ e.stop_order_count
      rw [akeys_aupdate]
      exact hinv.stop_bound
    · intro p hp
      obtain ⟨hpA, hpk⟩ := mem_aremove_iff.mp hp
      rw [alookup_aupdate_ne _ _ (fun hk2 => hpk hk2.symm)]
      exact hinv.active_stop_sub p hpA
    · exact nodup_akeys_aremove _ hinv.active_stop_nodup

theorem update_daily_close_inv (e : BacktestingEngine) (price : ℚ)
    (hinv : EngInv e) : EngInv (update_daily_close e price) := by
  rw [update_daily_close]
  split_ifs <;> exact EngInv_frame hinv rfl rfl rfl rfl rfl rfl rfl rfl rfl

theorem emit_inv (e : BacktestingEngine) (c : Callback)
    (hinv : EngInv e) : EngInv (emit e c) :=
  EngInv_frame hinv rfl rfl rfl rfl rfl rfl rfl rfl rfl

theorem new_bar_inv (e : BacktestingEngine) (m : MixData)
    (hinv : EngInv e) : EngInv (new_bar e m) := by
  cases m with
  | tick _ => exact hinv
  | bar b =>
    rw [new_bar]
    exact update_daily_close_inv _ _ (emit_inv _ _ (cross_stop_order_inv _
      (cross_limit_order_inv _
        (EngInv_frame hinv rfl rfl rfl rfl rfl rfl rfl rfl rfl))))

theorem stepCmd_inv (e : BacktestingEngine) (c : Cmd) (hinv : EngInv e) :
    EngInv (stepCmd e c) := by
  cases c with
  | newBar m => exact new_bar_inv e m hinv
  | sendLimit d o p v => exact send_limit_order_inv e d o p v hinv
  | sendStop d o p v => exact send_stop_order_inv e d o p v hinv
  | cancelLimit k => exact cancel_limit_order_inv e k hinv
  | cancelStop k => exact cancel_stop_order_inv e k hinv

theorem runCmds_inv (e : BacktestingEngine) (hinv : EngInv e) :
    ∀ cs : List Cmd, EngInv (runCmds e cs) := by
  intro cs
  induction cs generalizing e with
  | nil => exact hinv
  | cons c rest ih =>
    rw [runCmds, List.foldl_cons]
    exact ih _ (stepCmd_inv e c hinv)

theorem mkEngine_inv (mode : BacktestingMode) (sym : String)
    (ex : Exchange) : EngInv (mkEngine mode sym ex) := by
  refine ⟨rfl, ?_, ?_, ?_, ?_, ?_, ?_, ?_, ?_, ?_, ?_, ?_⟩ <;>
    simp [mkEngine, avalues, akeys]

/-! ## C7: position equals the signed sum of trade volumes -/

/-- C7: in every run in which the strategy body itself never writes the
`pos` field (the model executes exactly the engine entry points the
strategy can call, and only the crossing code writes `pos`), after any
sequence of bar events and strategy-issued order operations the
position equals the sum of `+volume` over LONG trades and `-volume`
over SHORT trades recorded so far. -/
theorem position_eq_signed_trade_sum (mode : BacktestingMode)
    (sym : String) (ex : Exchange) (cmds : List Cmd) :
    (runCmds (mkEngine mode sym ex) cmds).pos =
      posSum (runCmds (mkEngine mode sym ex) cmds).trades :=
  (runCmds_inv _ (mkEngine_inv mode sym ex) cmds).pos_eq

/-! ## C1: every trade has a matching order in `limit_orders` -/

/-- A trade created by one iteration of the `cross_limit_order` loop
carries the snapshot order's id, direction and volume, and its price is
at the good side of the order's limit price. -/
theorem crossLimitStep_trades_from (pr : CrossPrices)
    (e : BacktestingEngine) (knot : Nat) (o0 : OrderData) :
    ∀ t ∈ avalues (crossLimitStep pr e (knot, o0)).trades,
      t ∈ avalues e.trades ∨
        (t.orderid = o0.orderid ∧ t.direction = o0.direction ∧
         t.volume = o0.volume ∧
         (t.direction = Direction.LONG → t.price ≤ o0.price) ∧
         (t.direction = Direction.SHORT → o0.price ≤ t.price)) := by
  by_cases hs : o0.status = Status.SUBMITTING <;>
    [rw [crossLimitStep, if_pos hs, if_pos hs];
     rw [crossLimitStep, if_neg hs, if_neg hs]] <;>
  · by_cases hc : ((o0.direction = Direction.LONG ∧
          pr.long_cross_price ≤ o0.price ∧ 0 < pr.long_cross_price) ∨
        (o0.direction = Direction.SHORT ∧
          o0.price ≤ pr.short_cross_price ∧ 0 < pr.short_cross_price))
    · rw [if_pos hc]
      simp only [emit, aupdate_aupdate_self]
      by_cases hl : (o0.direction = Direction.LONG ∧
          pr.long_cross_price ≤ o0.price ∧ 0 < pr.long_cross_price)
      · rw [if_pos hl]
        have hdL : o0.direction = Direction.LONG := hl.1
        split_ifs with hcont <;>
        · intro t ht
          rcases avalues_ainsert_subset ht with rfl | hold
          · refine Or.inr ⟨rfl, rfl, rfl, fun _ => min_le_left _ _, ?_⟩
            intro hSdir
            have hS2 : o0.direction = Direction.SHORT := hSdir
            rw [hdL] at hS2
            cases hS2
          · exact Or.inl hold
      · rw [if_neg hl]
        have hdS : o0.direction = Direction.SHORT := (hc.resolve_left hl).1
        split_ifs with hcont <;>
        · intro t ht
          rcases avalues_ainsert_subset ht with rfl | hold
          · refine Or.inr ⟨rfl, rfl, rfl, ?_, fun _ => le_max_left _ _⟩
            intro hLdir
            have hL2 : o0.direction = Direction.LONG := hLdir
            rw [hdS] at hL2
            cases hL2
          · exact Or.inl hold
    · rw [if_neg hc]
      intro t ht
      exact Or.inl ht

/-- A trade created by one iteration of the `cross_stop_order` loop
carries the snapshot stop's direction and volume; its price is at the
bad side of the stop price (`max` for LONG, `min` for SHORT). -/
theorem crossStopStep_trades_from (pr : CrossPrices)
    (e : BacktestingEngine) (knot : Nat) (s0 : StopOrder) :
    ∀ t ∈ avalues (crossStopStep pr e (knot, s0)).trades,
      t ∈ avalues e.trades ∨
        (t.direction = s0.direction ∧ t.volume = s0.volume ∧
         (t.direction = Direction.LONG → s0.price ≤ t.price) ∧
         (t.direction = Direction.SHORT → t.price ≤ s0.price)) := by
  rw [crossStopStep]
  by_cases hc : ((s0.direction = Direction.LONG ∧
        s0.price ≤ pr.long_cross_price) ∨
      (s0.direction = Direction.SHORT ∧ pr.short_cross_price ≤ s0.price))
  · rw [if_pos hc]
    simp only [emit]
    by_cases hl : (s0.direction = Direction.LONG ∧
        s0.price ≤ pr.long_cross_price)
    · rw [if_pos hl]
      have hdL : s0.direction = Direction.LONG := hl.1
      split_ifs with hcont <;>
      · intro t ht
        rcases avalues_ainsert_subset ht with rfl | hold
        · refine Or.inr ⟨rfl, rfl, fun _ => le_max_left _ _, ?_⟩
          intro hSdir
          have hS2 : s0.direction = Direction.SHORT := hSdir
          rw [hdL] at hS2
          cases hS2
        · exact Or.inl hold
    · rw [if_neg hl]
      have hdS : s0.direction = Direction.SHORT := (hc.resolve_left hl).1
      split_ifs with hcont <;>
      · intro t ht
        rcases avalues_ainsert_subset ht with rfl | hold
        · refine Or.inr ⟨rfl, rfl, ?_, fun _ => min_le_left _ _⟩
          intro hLdir
          have hL2 : s0.direction = Direction.LONG := hLdir
          rw [hdS] at hL2
          cases hL2
        · exact Or.inl hold
  · rw [if_neg hc]
    intro t ht
    exact Or.inl ht

theorem foldl_crossLimitStep_trades_from (pr : CrossPrices) :
    ∀ (l : List (Nat × OrderData)) (e : BacktestingEngine),
      ∀ t ∈ avalues ((l.foldl (crossLimitStep pr) e).trades),
        t ∈ avalues e.trades ∨ ∃ p ∈ l,
          (t.orderid = p.2.orderid ∧ t.direction = p.2.direction ∧
           t.volume = p.2.volume ∧
           (t.direction = Direction.LONG → t.price ≤ p.2.price) ∧
           (t.direction = Direction.SHORT → p.2.price ≤ t.price))
  | [], _, _, ht => Or.inl ht
  | p :: rest, e, t, ht => by
    rw [List.foldl_cons] at ht
    rcases foldl_crossLimitStep_trades_from pr rest _ t ht with h |
      ⟨q, hq, hprops⟩
    · rcases crossLimitStep_trades_from pr e p.1 p.2 t h with h2 | hprops
      · exact Or.inl h2
      · exact Or.inr ⟨p, List.mem_cons_self _ _, hprops⟩
    · exact Or.inr ⟨q, List.mem_cons_of_mem _ hq, hprops⟩

theorem foldl_crossStopStep_trades_from (pr : CrossPrices) :
    ∀ (l : List (Nat × StopOrder)) (e : BacktestingEngine),
      ∀ t ∈ avalues ((l.foldl (crossStopStep pr) e).trades),
        t ∈ avalues e.trades ∨ ∃ p ∈ l,
          (t.direction = p.2.direction ∧ t.volume = p.2.volume ∧
           (t.direction = Direction.LONG → p.2.price ≤ t.price) ∧
           (t.direction = Direction.SHORT → t.price ≤ p.2.price))
  | [], _, _, ht => Or.inl ht
  | p :: rest, e, t, ht => by
    rw [List.foldl_cons] at ht
    rcases foldl_crossStopStep_trades_from pr rest _ t ht with h |
      ⟨q, hq, hprops⟩
    · rcases crossStopStep_trades_from pr e p.1 p.2 t h with h2 | hprops
      · exact Or.inl h2
      · exact Or.inr ⟨p, List.mem_cons_self _ _, hprops⟩
    · exact Or.inr ⟨q, List.mem_cons_of_mem _ hq, hprops⟩

/-- C1 counterexample: in the stop-trigger run `engStopRun` (LONG stop
at 107, bar open 108) the single trade has price 108 while the only
order in `limit_orders` with its id has price 107, so the claimed
inequality `o.price ≥ t.price` for LONG fails for stop-produced
trades. -/
theorem trade_order_price_bound_cex :
    ¬ ∀ t ∈ avalues engStopRun.trades, ∃ o ∈ avalues engStopRun.limit_orders,
      o.orderid = t.orderid ∧
      (t.direction = Direction.LONG → t.price ≤ o.price) ∧
      (t.direction = Direction.SHORT → o.price ≤ t.price) := by
  decide

/-- C1 amended: for every trade there is an order in `limit_orders`
with the trade's order id, direction and volume; the claimed price
inequality (`o.price ≥ t.price` for LONG, `≤` for SHORT) holds for
trades produced by limit-order crossing, but for trades produced by
stop-order triggering the inequality is reversed (the stop fills at the
worse of its price and the best price). -/
theorem trade_has_matching_order :
    (∀ (mode : BacktestingMode) (sym : String) (ex : Exchange)
        (cmds : List Cmd) (t : TradeData),
      t ∈ avalues (runCmds (mkEngine mode sym ex) cmds).trades →
      ∃ o ∈ avalues (runCmds (mkEngine mode sym ex) cmds).limit_orders,
        o.orderid = t.orderid ∧ o.direction = t.direction ∧
        o.volume = t.volume) ∧
    (∀ (e : BacktestingEngine) (t : TradeData),
      t ∈ avalues (cross_limit_order e).trades →
      t ∈ avalues e.trades ∨ ∃ p ∈ e.active_limit_orders,
        t.orderid = p.2.orderid ∧ t.direction = p.2.direction ∧
        t.volume = p.2.volume ∧
        (t.direction = Direction.LONG → t.price ≤ p.2.price) ∧
        (t.direction = Direction.SHORT → p.2.price ≤ t.price)) ∧
    (∀ (e : BacktestingEngine) (t : TradeData),
      t ∈ avalues (cross_stop_order e).trades →
      t ∈ avalues e.trades ∨ ∃ p ∈ e.active_stop_orders,
        t.direction = p.2.direction ∧ t.volume = p.2.volume ∧
        (t.direction = Direction.LONG → p.2.price ≤ t.price) ∧
        (t.direction = Direction.SHORT → t.price ≤ p.2.price)) := by
  refine ⟨?_, ?_, ?_⟩
  · intro mode sym ex cmds t ht
    exact (runCmds_inv _ (mkEngine_inv mode sym ex) cmds).trade_order t ht
  · intro e t ht
    exact foldl_crossLimitStep_trades_from _ e.active_limit_orders e t ht
  · intro e t ht
    exact foldl_crossStopStep_trades_from _ e.active_stop_orders e t ht

/-- Witness for C1 on the stop-trigger run: its trade (id 1, LONG,
price 108) has a matching order in `limit_orders`. -/
theorem trade_has_matching_order_witness :
    ∃ o ∈ avalues (runCmds (mkEngine .BAR "ETH" .LOCAL)
        [.sendStop .LONG .OPEN 107 1, .newBar (.bar barX)]).limit_orders,
      o.orderid = 1 ∧ o.direction = Direction.LONG ∧ o.volume = 1 := by
  have h := trade_has_matching_order.1 .BAR "ETH" .LOCAL
    [.sendStop .LONG .OPEN 107 1, .newBar (.bar barX)]
    { symbol := "ETH", exchange := .LOCAL, orderid := 1, tradeid := 1,
      direction := .LONG, offset := .OPEN, price := 108, volume := 1,
      datetime := ⟨2, 0⟩ }
    (by decide)
  obtain ⟨o, ho, h1, h2, h3⟩ := h
  exact ⟨o, ho, h1, h2, h3⟩

theorem limitFrame_rfl {K : Nat} {e : BacktestingEngine} :
    LimitFrame K e e :=
  ⟨Eq.refl _, Eq.refl _, le_refl _, fun _ hq _ => hq⟩

theorem limitFrame_trans {K : Nat} {a b c : BacktestingEngine}
    (h1 : LimitFrame K a b) (h2 : LimitFrame K b c) : LimitFrame K a c := by
  obtain ⟨l1, a1, t1, q1⟩ := h1
  obtain ⟨l2, a2, t2, q2⟩ := h2
  refine ⟨l2.trans l1, a2.trans a1, t1.trans t2, ?_⟩
  intro q hq hb
  exact q2 q (q1 q hq hb) (le_trans hb t1)

theorem stopFrame_rfl {K : Nat} {e : BacktestingEngine} :
    StopFrame K e e :=
  ⟨Eq.refl _, Eq.refl _, le_refl _, fun _ hq _ => hq, le_refl _,
   fun _ _ => Eq.refl _, Eq.refl _⟩

theorem stopFrame_trans {K : Nat} {a b c : BacktestingEngine}
    (h1 : StopFrame K a b) (h2 : StopFrame K b c) : StopFrame K a c := by
  obtain ⟨s1, a1, t1, q1, c1, lk1, al1⟩ := h1
  obtain ⟨s2, a2, t2, q2, c2, lk2, al2⟩ := h2
  refine ⟨s2.trans s1, a2.trans a1, t1.trans t2, ?_, c1.trans c2, ?_, al2.trans al1⟩
  · intro q hq hb
    exact q2 q (q1 q hq hb) (le_trans hb t1)
  · intro k2 hk2
    exact (lk2 k2 (le_trans hk2 c1)).trans (lk1 k2 hk2)

theorem crossLimitStep_trade_count_mono (pr : CrossPrices)
    (e : BacktestingEngine) (p : Nat × OrderData) :
    e.trade_count ≤ (crossLimitStep pr e p).trade_count := by
  rw [crossLimitStep]
  split_ifs <;> simp [emit, apply_ite]

theorem crossLimitStep_trades_pres (pr : CrossPrices)
    (e : BacktestingEngine) (p : Nat × OrderData) :
    ∀ q : Nat × TradeData, q ∈ e.trades → q.1 ≤ e.trade_count →
      q ∈ (crossLimitStep pr e p).trades := by
  intro q hq hb
  obtain ⟨q1, q2⟩ := q
  simp only at hb
  rw [crossLimitStep]
  split_ifs <;> (try simp only [emit, apply_ite, ite_self]) <;>
    first
      | exact hq
      | exact mem_ainsert_of_ne (e.trade_count + 1) _ hq (by omega)

/-- A `cross_limit_order` iteration on a snapshot entry with key other
than `K` satisfies the frame. -/
theorem crossLimitStep_limitFrame (pr : CrossPrices)
    (e : BacktestingEngine) (p : Nat × OrderData) (K : Nat)
    (h : p.1 ≠ K) : LimitFrame K e (crossLimitStep pr e p) :=
  ⟨(crossLimitStep_alookup_ne pr e p K h).1,
   (crossLimitStep_alookup_ne pr e p K h).2,
   crossLimitStep_trade_count_mono pr e p,
   crossLimitStep_trades_pres pr e p⟩

theorem foldl_crossLimitStep_limitFrame (pr : CrossPrices) (K : Nat) :
    ∀ (l : List (Nat × OrderData)) (e : BacktestingEngine), K ∉ akeys l →
      LimitFrame K e (l.foldl (crossLimitStep pr) e)
  | [], e, _ => limitFrame_rfl
  | p :: rest, e, hK => by
    rw [List.foldl_cons]
    have hp : p.1 ≠ K := by
      intro hpk
      exact hK (by rw [← hpk]; exact List.mem_map.mpr ⟨p, List.mem_cons_self _ _, rfl⟩)
    refine limitFrame_trans (crossLimitStep_limitFrame pr e p K hp) ?_
    exact foldl_crossLimitStep_limitFrame pr K rest _
      (fun hm => hK (List.mem_cons_of_mem _ hm))

theorem crossStopStep_stopFrame (pr : CrossPrices)
    (e : BacktestingEngine) (p : Nat × StopOrder) (K : Nat)
    (h : p.1 ≠ K) : StopFrame K e (crossStopStep pr e p) := by
  have h1 : ∀ (v : StopOrder) (l : List (Nat × StopOrder)),
      alookup K (aupdate p.1 v l) = alookup K l :=
    fun v l => alookup_aupdate_ne v l h
  have h2 : ∀ (l : List (Nat × StopOrder)),
      alookup K (aremove p.1 l) = alookup K l :=
    fun l => alookup_aremove_ne l h
  refine ⟨?_, ?_, ?_, ?_, ?_, ?_, ?_⟩
  · rw [crossStopStep]
    split_ifs <;> simp [emit, apply_ite, h1, h2]
  · rw [crossStopStep]
    split_ifs <;> simp [emit, apply_ite, h1, h2]
  · rw [crossStopStep]
    split_ifs <;> simp [emit, apply_ite]
  · intro q hq hb
    obtain ⟨q1, q2⟩ := q
    simp only at hb
    rw [crossStopStep]
    split_ifs <;> (try simp only [emit, apply_ite, ite_self]) <;>
      first
        | exact hq
        | exact mem_ainsert_of_ne (e.trade_count + 1) _ hq (by omega)
  · rw [crossStopStep]
    split_ifs <;> simp [emit, apply_ite]
  · intro k2 hk2
    rw [crossStopStep]
    split_ifs <;> (try simp only [emit, apply_ite, ite_self]) <;>
      first
        | rfl
        | exact alookup_ainsert_ne _ _ (by omega)
  · rw [crossStopStep]
    split_ifs <;> simp [emit, apply_ite]

theorem foldl_crossStopStep_stopFrame (pr : CrossPrices) (K : Nat) :
    ∀ (l : List (Nat × StopOrder)) (e : BacktestingEngine), K ∉ akeys l →
      StopFrame K e (l.foldl (crossStopStep pr) e)
  | [], e, _ => stopFrame_rfl
  | p :: rest, e, hK => by
    rw [List.foldl_cons]
    have hp : p.1 ≠ K := by
      intro hpk
      exact hK (by rw [← hpk]; exact List.mem_map.mpr ⟨p, List.mem_cons_self _ _, rfl⟩)
    refine stopFrame_trans (crossStopStep_stopFrame pr e p K hp) ?_
    exact foldl_crossStopStep_stopFrame pr K rest _
      (fun hm => hK (List.mem_cons_of_mem _ hm))

theorem mem_ainsert_self {κ α : Type} [DecidableEq κ] (k : κ) (v : α)
    (l : List (κ × α)) : (k, v) ∈ ainsert k v l := by
  rw [ainsert]
  by_cases hc : acontains k l
  · rw [if_pos hc]
    obtain ⟨w, hw⟩ := mem_akeys.mp (acontains_iff.mp hc)
    exact List.mem_map.mpr ⟨(k, w), hw, by simp⟩
  · rw [if_neg hc]
    exact List.mem_append_right _ (List.mem_singleton.mpr rfl)

/-- The `cross_limit_order` iteration on its own snapshot entry, when
the crossing condition holds: the order leaves the active map, its
history entry becomes fully traded, and the trade with the next id and
the better of limit price and best price is recorded. -/
theorem crossLimitStep_self_cross (pr : CrossPrices)
    (e : BacktestingEngine) (K : Nat) (O : OrderData)
    (hC : (O.direction = Direction.LONG ∧ pr.long_cross_price ≤ O.price ∧
            0 < pr.long_cross_price) ∨
          (O.direction = Direction.SHORT ∧ O.price ≤ pr.short_cross_price ∧
            0 < pr.short_cross_price))
    (hlk : alookup K e.limit_orders = some O) :
    K ∉ akeys (crossLimitStep pr e (K, O)).active_limit_orders ∧
    alookup K (crossLimitStep pr e (K, O)).limit_orders =
      some { O with traded := O.volume, status := Status.ALLTRADED } ∧
    (crossLimitStep pr e (K, O)).trade_count = e.trade_count + 1 ∧
    (((e.trade_count + 1,
      { symbol := O.symbol, exchange := O.exchange, orderid := O.orderid,
        tradeid := e.trade_count + 1, direction := O.direction,
        offset := O.offset,
        price := if O.direction = Direction.LONG
          then min O.price pr.long_best_price
          else max O.price pr.short_best_price,
        volume := O.volume, datetime := e.datetime }) : Nat × TradeData)
      ∈ (crossLimitStep pr e (K, O)).trades) := by
  by_cases hs : O.status = Status.SUBMITTING <;>
    [rw [crossLimitStep, if_pos hs, if_pos hs];
     rw [crossLimitStep, if_neg hs, if_neg hs]] <;>
  · rw [if_pos hC]
    simp only [emit, aupdate_aupdate_self]
    by_cases hl : (O.direction = Direction.LONG ∧
        pr.long_cross_price ≤ O.price ∧ 0 < pr.long_cross_price)
    · rw [if_pos hl, if_pos hl.1]
      split_ifs with hcont
      · refine ⟨?_, ?_, rfl, ?_⟩
        · exact alookup_eq_none.mp (alookup_aremove_self _ _)
        · exact alookup_aupdate_self _ (mem_akeys_of_alookup hlk)
        · exact mem_ainsert_self _ _ _
      · refine ⟨?_, ?_, rfl, ?_⟩
        · exact fun hK => hcont (acontains_iff.mpr hK)
        · exact alookup_aupdate_self _ (mem_akeys_of_alookup hlk)
        · exact mem_ainsert_self _ _ _
    · have hdS : O.direction = Direction.SHORT := (hC.resolve_left hl).1
      have hne : ¬ O.direction = Direction.LONG := by
        rw [hdS]
        intro hd
        cases hd
      rw [if_neg hl, if_neg hne]
      split_ifs with hcont
      · refine ⟨?_, ?_, rfl, ?_⟩
        · exact alookup_eq_none.mp (alookup_aremove_self _ _)
        · exact alookup_aupdate_self _ (mem_akeys_of_alookup hlk)
        · exact mem_ainsert_self _ _ _
      · refine ⟨?_, ?_, rfl, ?_⟩
        · exact fun hK => hcont (acontains_iff.mpr hK)
        · exact alookup_aupdate_self _ (mem_akeys_of_alookup hlk)
        · exact mem_ainsert_self _ _ _

/-- The `cross_limit_order` iteration on its own snapshot entry, when
the crossing condition fails: the active keys are unchanged. -/
theorem crossLimitStep_self_nocross (pr : CrossPrices)
    (e : BacktestingEngine) (K : Nat) (O : OrderData)
    (hC : ¬ ((O.direction = Direction.LONG ∧ pr.long_cross_price ≤ O.price ∧
            0 < pr.long_cross_price) ∨
          (O.direction = Direction.SHORT ∧ O.price ≤ pr.short_cross_price ∧
            0 < pr.short_cross_price))) :
    akeys (crossLimitStep pr e (K, O)).active_limit_orders =
      akeys e.active_limit_orders := by
  by_cases hs : O.status = Status.SUBMITTING <;>
    [rw [crossLimitStep, if_pos hs, if_pos hs];
     rw [crossLimitStep, if_neg hs, if_neg hs]] <;>
  · rw [if_neg hC]
    try
      first
        | (show akeys (aupdate K _ e.active_limit_orders) =
              akeys e.active_limit_orders
           exact akeys_aupdate _ _ _)
        | rfl

/-! ## C3: BAR-mode limit-order crossing -/

/-- C3: in BAR mode, an active LONG limit order fills during
`cross_limit_order` iff `bar.low ≤ order.price` and `bar.low > 0`, and
an active SHORT limit order fills iff `order.price ≤ bar.high` and
`bar.high > 0`.  On a fill the order's history entry gets
`traded = volume` and status ALLTRADED, the order leaves
`active_limit_orders`, and a new trade is recorded whose price is
`min(order.price, bar.open)` for LONG and `max(order.price, bar.open)`
for SHORT.  The hypotheses are the reachable-state facts: the active
entry is mirrored in the history map, active keys are unique, and
recorded trade ids respect the counter. -/
theorem cross_limit_order_bar_spec (e : BacktestingEngine) (K : Nat)
    (O : OrderData) (hmode : e.mode = BacktestingMode.BAR)
    (hmem : (K, O) ∈ e.active_limit_orders)
    (hlk : alookup K e.limit_orders = some O)
    (hnd : (akeys e.active_limit_orders).Nodup)
    (htrv : ∀ t ∈ avalues e.trades, t.tradeid ≤ e.trade_count) :
    (O.direction = Direction.LONG →
        ((e.bar.low_price ≤ O.price ∧ 0 < e.bar.low_price) ↔
          K ∉ akeys (cross_limit_order e).active_limit_orders)) ∧
    (O.direction = Direction.SHORT →
        ((O.price ≤ e.bar.high_price ∧ 0 < e.bar.high_price) ↔
          K ∉ akeys (cross_limit_order e).active_limit_orders)) ∧
    ((O.direction = Direction.LONG ∨ O.direction = Direction.SHORT) →
      K ∉ akeys (cross_limit_order e).active_limit_orders →
        alookup K (cross_limit_order e).limit_orders =
          some { O with traded := O.volume, status := Status.ALLTRADED } ∧
        ∃ t ∈ avalues (cross_limit_order e).trades, t ∉ avalues e.trades ∧
          t.orderid = O.orderid ∧ t.direction = O.direction ∧
          t.volume = O.volume ∧
          t.price = (if O.direction = Direction.LONG
            then min O.price e.bar.open_price
            else max O.price e.bar.open_price)) := by
  have hpr : limitCrossPrices e =
      ⟨e.bar.low_price, e.bar.high_price, e.bar.open_price,
       e.bar.open_price⟩ := by
    rw [limitCrossPrices, if_pos hmode]
  obtain ⟨l1, l2, hsplit⟩ := List.append_of_mem hmem
  have hking : akeys e.active_limit_orders = akeys l1 ++ K :: akeys l2 := by
    rw [hsplit]
    simp [akeys]
  have hnd2 : (akeys l1 ++ K :: akeys l2).Nodup := hking ▸ hnd
  rw [List.nodup_append] at hnd2
  have hK1 : K ∉ akeys l1 := fun h => hnd2.2.2 h (List.mem_cons_self _ _)
  have hK2 : K ∉ akeys l2 := (List.nodup_cons.mp hnd2.2.1).1
  have hunfold : cross_limit_order e =
      l2.foldl (crossLimitStep (limitCrossPrices e))
        (crossLimitStep (limitCrossPrices e)
          (l1.foldl (crossLimitStep (limitCrossPrices e)) e) (K, O)) := by
    rw [cross_limit_order, hsplit, List.foldl_append, List.foldl_cons]
  have hfr1 : LimitFrame K e
      (l1.foldl (crossLimitStep (limitCrossPrices e)) e) :=
    foldl_crossLimitStep_limitFrame _ K l1 e hK1
  have hlkF1 : alookup K
      (l1.foldl (crossLimitStep (limitCrossPrices e)) e).limit_orders =
      some O := hfr1.1.trans hlk
  have hactF1 : alookup K
      (l1.foldl (crossLimitStep (limitCrossPrices e)) e).active_limit_orders =
      some O := hfr1.2.1.trans (alookup_unique hnd hmem)
  have hiff : K ∉ akeys (cross_limit_order e).active_limit_orders ↔
      ((O.direction = Direction.LONG ∧
          (limitCrossPrices e).long_cross_price ≤ O.price ∧
          0 < (limitCrossPrices e).long_cross_price) ∨
        (O.direction = Direction.SHORT ∧
          O.price ≤ (limitCrossPrices e).short_cross_price ∧
          0 < (limitCrossPrices e).short_cross_price)) := by
    rw [hunfold]
    by_cases hC : ((O.direction = Direction.LONG ∧
          (limitCrossPrices e).long_cross_price ≤ O.price ∧
          0 < (limitCrossPrices e).long_cross_price) ∨
        (O.direction = Direction.SHORT ∧
          O.price ≤ (limitCrossPrices e).short_cross_price ∧
          0 < (limitCrossPrices e).short_cross_price))
    · have hself := crossLimitStep_self_cross (limitCrossPrices e) _ K O hC hlkF1
      have hfr2 := foldl_crossLimitStep_limitFrame (limitCrossPrices e) K l2
        (crossLimitStep (limitCrossPrices e)
          (l1.foldl (crossLimitStep (limitCrossPrices e)) e) (K, O)) hK2
      have : alookup K (l2.foldl (crossLimitStep (limitCrossPrices e))
          (crossLimitStep (limitCrossPrices e)
            (l1.foldl (crossLimitStep (limitCrossPrices e)) e) (K, O))).active_limit_orders = none :=
        hfr2.2.1.trans (alookup_eq_none.mpr hself.1)
      simp [alookup_eq_none.mp this, hC]
    · have hself := crossLimitStep_self_nocross (limitCrossPrices e)
        (l1.foldl (crossLimitStep (limitCrossPrices e)) e) K O hC
      have hfr2 := foldl_crossLimitStep_limitFrame (limitCrossPrices e) K l2
        (crossLimitStep (limitCrossPrices e)
          (l1.foldl (crossLimitStep (limitCrossPrices e)) e) (K, O)) hK2
      have hkin : K ∈ akeys (crossLimitStep (limitCrossPrices e)
          (l1.foldl (crossLimitStep (limitCrossPrices e)) e)
            (K, O)).active_limit_orders := by
        rw [hself]
        exact mem_akeys_of_alookup hactF1
      obtain ⟨v, hv⟩ := alookup_of_mem_akeys hkin
      have : alookup K (l2.foldl (crossLimitStep (limitCrossPrices e))
          (crossLimitStep (limitCrossPrices e)
            (l1.foldl (crossLimitStep (limitCrossPrices e)) e) (K, O))).active_limit_orders = some v :=
        hfr2.2.1.trans hv
      constructor
      · intro hnotin
        exact absurd (mem_akeys_of_alookup this)
          (fun h => hnotin h)
      · intro hCC
        exact absurd hCC hC
  refine ⟨?_, ?_, ?_⟩
  · intro hL
    rw [hiff, hpr]
    constructor
    · intro ⟨h1, h2⟩
      exact Or.inl ⟨hL, h1, h2⟩
    · intro h
      rcases h with ⟨_, h1, h2⟩ | ⟨hS, _⟩
      · exact ⟨h1, h2⟩
      · rw [hL] at hS
        cases hS
  · intro hS
    rw [hiff, hpr]
    constructor
    · intro ⟨h1, h2⟩
      exact Or.inr ⟨hS, h1, h2⟩
    · intro h
      rcases h with ⟨hL, _⟩ | ⟨_, h1, h2⟩
      · rw [hS] at hL
        cases hL
      · exact ⟨h1, h2⟩
  · intro _ hfill
    have hC := hiff.mp hfill
    have hself := crossLimitStep_self_cross (limitCrossPrices e) _ K O hC hlkF1
    have hfr2 := foldl_crossLimitStep_limitFrame (limitCrossPrices e) K l2
      (crossLimitStep (limitCrossPrices e)
        (l1.foldl (crossLimitStep (limitCrossPrices e)) e) (K, O)) hK2
    constructor
    · rw [hunfold]
      exact hfr2.1.trans hself.2.1
    · have htc1 : e.trade_count ≤
          (l1.foldl (crossLimitStep (limitCrossPrices e)) e).trade_count :=
        hfr1.2.2.1
      have hmemT := hfr2.2.2.2 _ hself.2.2.2 (by rw [hself.2.2.1])
      refine ⟨{ symbol := O.symbol, exchange := O.exchange,
                orderid := O.orderid,
                tradeid := (List.foldl (crossLimitStep (limitCrossPrices e)) e l1).trade_count + 1,
                direction := O.direction, offset := O.offset,
                price := if O.direction = Direction.LONG then min O.price (limitCrossPrices e).long_best_price else max O.price (limitCrossPrices e).short_best_price,
                volume := O.volume,
                datetime := (List.foldl (crossLimitStep (limitCrossPrices e)) e l1).datetime },
        ?_, ?_, rfl, rfl, rfl, ?_⟩
      · rw [hunfold]
        exact mem_avalues.mpr ⟨_, hmemT⟩
      · intro hold
        have hb := htrv _ hold
        simp only at hb
        omega
      · simp only [hpr]

/-- Witness for C3 on `engLimRun`: the LONG order at 120 crosses on
`barX` (low 106) and leaves the active map. -/
theorem cross_limit_order_bar_spec_witness :
    (1, orderWit) ∈ engLimRun.active_limit_orders ∧
    1 ∉ akeys (cross_limit_order engLimRun).active_limit_orders :=
  ⟨by decide,
   ((cross_limit_order_bar_spec engLimRun 1 orderWit rfl (by decide)
       (by decide) (by decide) (by decide)).1 rfl).mp (by decide)⟩

/-- The `cross_stop_order` iteration on its own snapshot entry, when
the trigger condition holds: the stop leaves the active stop map, its
history entry becomes TRIGGERED and records the spawned order id, the
spawned order is born ALLTRADED in the history map (the active limit
map is untouched), and the trade with the next id and the worse of
stop price and best price is recorded. -/
theorem crossStopStep_self_cross (pr : CrossPrices)
    (e : BacktestingEngine) (K : Nat) (S : StopOrder)
    (hC : (S.direction = Direction.LONG ∧ S.price ≤ pr.long_cross_price) ∨
          (S.direction = Direction.SHORT ∧ pr.short_cross_price ≤ S.price))
    (hlk : alookup K e.stop_orders = some S) :
    K ∉ akeys (crossStopStep pr e (K, S)).active_stop_orders ∧
    alookup K (crossStopStep pr e (K, S)).stop_orders =
      some { S with vt_orderids := S.vt_orderids ++ [e.limit_order_count + 1],
                    status := StopOrderStatus.TRIGGERED } ∧
    (crossStopStep pr e (K, S)).trade_count = e.trade_count + 1 ∧
    (crossStopStep pr e (K, S)).limit_order_count = e.limit_order_count + 1 ∧
    alookup (e.limit_order_count + 1) (crossStopStep pr e (K, S)).limit_orders =
      some { symbol := e.symbol, exchange := e.exchange,
             orderid := e.limit_order_count + 1, direction := S.direction,
             offset := S.offset, price := S.price, volume := S.volume,
             traded := S.volume, status := Status.ALLTRADED,
             datetime := e.datetime } ∧
    (crossStopStep pr e (K, S)).active_limit_orders = e.active_limit_orders ∧
    (((e.trade_count + 1,
      { symbol := e.symbol, exchange := e.exchange,
        orderid := e.limit_order_count + 1, tradeid := e.trade_count + 1,
        direction := S.direction, offset := S.offset,
        price := if S.direction = Direction.LONG
          then max S.price pr.long_best_price
          else min S.price pr.short_best_price,
        volume := S.volume, datetime := e.datetime }) : Nat × TradeData)
      ∈ (crossStopStep pr e (K, S)).trades) := by
  rw [crossStopStep, if_pos hC]
  simp only [emit]
  by_cases hl : (S.direction = Direction.LONG ∧ S.price ≤ pr.long_cross_price)
  · rw [if_pos hl, if_pos hl.1]
    split_ifs with hcont
    · refine ⟨?_, ?_, rfl, rfl, ?_, rfl, ?_⟩
      · exact alookup_eq_none.mp (alookup_aremove_self _ _)
      · exact alookup_aupdate_self _ (mem_akeys_of_alookup hlk)
      · exact alookup_ainsert_self _ _ _
      · exact mem_ainsert_self _ _ _
    · refine ⟨?_, ?_, rfl, rfl, ?_, rfl, ?_⟩
      · exact fun hK => hcont (acontains_iff.mpr hK)
      · exact alookup_aupdate_self _ (mem_akeys_of_alookup hlk)
      · exact alookup_ainsert_self _ _ _
      · exact mem_ainsert_self _ _ _
  · have hdS : S.direction = Direction.SHORT := (hC.resolve_left hl).1
    have hne : ¬ S.direction = Direction.LONG := by
      rw [hdS]
      intro hd
      cases hd
    rw [if_neg hl, if_neg hne]
    split_ifs with hcont
    · refine ⟨?_, ?_, rfl, rfl, ?_, rfl, ?_⟩
      · exact alookup_eq_none.mp (alookup_aremove_self _ _)
      · exact alookup_aupdate_self _ (mem_akeys_of_alookup hlk)
      · exact alookup_ainsert_self _ _ _
      · exact mem_ainsert_self _ _ _
    · refine ⟨?_, ?_, rfl, rfl, ?_, rfl, ?_⟩
      · exact fun hK => hcont (acontains_iff.mpr hK)
      · exact alookup_aupdate_self _ (mem_akeys_of_alookup hlk)
      · exact alookup_ainsert_self _ _ _
      · exact mem_ainsert_self _ _ _

/-- The `cross_stop_order` iteration on its own snapshot entry, when
the trigger condition fails: the engine is unchanged. -/
theorem crossStopStep_self_nocross (pr : CrossPrices)
    (e : BacktestingEngine) (K : Nat) (S : StopOrder)
    (hC : ¬ ((S.direction = Direction.LONG ∧ S.price ≤ pr.long_cross_price) ∨
          (S.direction = Direction.SHORT ∧ pr.short_cross_price ≤ S.price))) :
    crossStopStep pr e (K, S) = e := by
  rw [crossStopStep, if_neg hC]

/-! ## C4: BAR-mode stop-order triggering -/

/-- C4: in BAR mode, an active LONG stop order triggers during
`cross_stop_order` iff `stop.price ≤ bar.high`, and an active SHORT
stop order triggers iff `bar.low ≤ stop.price`.  On a trigger the
spawned limit order (some fresh id `oid`) is created directly at
status ALLTRADED with `traded = volume`, is inserted into
`limit_orders` but not into `active_limit_orders`, the stop's history
entry becomes TRIGGERED (recording `oid`) and the stop leaves
`active_stop_orders`, and a new trade is recorded whose price is
`max(stop.price, bar.open)` for LONG and `min(stop.price, bar.open)`
for SHORT.  The hypotheses are the reachable-state facts: the active
entry is mirrored in the history map, active stop keys are unique,
recorded trade ids respect the counter, and active limit keys respect
the limit-order counter. -/
theorem cross_stop_order_bar_spec (e : BacktestingEngine) (K : Nat)
    (S : StopOrder) (hmode : e.mode = BacktestingMode.BAR)
    (hmem : (K, S) ∈ e.active_stop_orders)
    (hlk : alookup K e.stop_orders = some S)
    (hnd : (akeys e.active_stop_orders).Nodup)
    (htrv : ∀ t ∈ avalues e.trades, t.tradeid ≤ e.trade_count)
    (hact : ∀ k ∈ akeys e.active_limit_orders, k ≤ e.limit_order_count) :
    (S.direction = Direction.LONG →
        ((S.price ≤ e.bar.high_price) ↔
          K ∉ akeys (cross_stop_order e).active_stop_orders)) ∧
    (S.direction = Direction.SHORT →
        ((e.bar.low_price ≤ S.price) ↔
          K ∉ akeys (cross_stop_order e).active_stop_orders)) ∧
    ((S.direction = Direction.LONG ∨ S.direction = Direction.SHORT) →
      K ∉ akeys (cross_stop_order e).active_stop_orders →
        ∃ oid : Nat,
          oid ∉ akeys (cross_stop_order e).active_limit_orders ∧
          (∃ o : OrderData,
            alookup oid (cross_stop_order e).limit_orders = some o ∧
            o.orderid = oid ∧ o.direction = S.direction ∧
            o.offset = S.offset ∧ o.price = S.price ∧ o.volume = S.volume ∧
            o.traded = S.volume ∧ o.status = Status.ALLTRADED) ∧
          alookup K (cross_stop_order e).stop_orders =
            some { S with vt_orderids := S.vt_orderids ++ [oid],
                          status := StopOrderStatus.TRIGGERED } ∧
          ∃ t ∈ avalues (cross_stop_order e).trades, t ∉ avalues e.trades ∧
            t.orderid = oid ∧ t.direction = S.direction ∧
            t.volume = S.volume ∧
            t.price = (if S.direction = Direction.LONG
              then max S.price e.bar.open_price
              else min S.price e.bar.open_price)) := by
  have hpr : stopCrossPrices e =
      ⟨e.bar.high_price, e.bar.low_price, e.bar.open_price,
       e.bar.open_price⟩ := by
    rw [stopCrossPrices, if_pos hmode]
  obtain ⟨l1, l2, hsplit⟩ := List.append_of_mem hmem
  have hking : akeys e.active_stop_orders = akeys l1 ++ K :: akeys l2 := by
    rw [hsplit]
    simp [akeys]
  have hnd2 : (akeys l1 ++ K :: akeys l2).Nodup := hking ▸ hnd
  rw [List.nodup_append] at hnd2
  have hK1 : K ∉ akeys l1 := fun h => hnd2.2.2 h (List.mem_cons_self _ _)
  have hK2 : K ∉ akeys l2 := (List.nodup_cons.mp hnd2.2.1).1
  have hunfold : cross_stop_order e =
      l2.foldl (crossStopStep (stopCrossPrices e))
        (crossStopStep (stopCrossPrices e)
          (l1.foldl (crossStopStep (stopCrossPrices e)) e) (K, S)) := by
    rw [cross_stop_order, hsplit, List.foldl_append, List.foldl_cons]
  have hfr1 : StopFrame K e
      (l1.foldl (crossStopStep (stopCrossPrices e)) e) :=
    foldl_crossStopStep_stopFrame _ K l1 e hK1
  have hlkF1 : alookup K
      (l1.foldl (crossStopStep (stopCrossPrices e)) e).stop_orders =
      some S := hfr1.1.trans hlk
  have hactF1 : alookup K
      (l1.foldl (crossStopStep (stopCrossPrices e)) e).active_stop_orders =
      some S := hfr1.2.1.trans (alookup_unique hnd hmem)
  have hiff : K ∉ akeys (cross_stop_order e).active_stop_orders ↔
      ((S.direction = Direction.LONG ∧
          S.price ≤ (stopCrossPrices e).long_cross_price) ∨
        (S.direction = Direction.SHORT ∧
          (stopCrossPrices e).short_cross_price ≤ S.price)) := by
    rw [hunfold]
    by_cases hC : ((S.direction = Direction.LONG ∧
          S.price ≤ (stopCrossPrices e).long_cross_price) ∨
        (S.direction = Direction.SHORT ∧
          (stopCrossPrices e).short_cross_price ≤ S.price))
    · have hself := crossStopStep_self_cross (stopCrossPrices e)
        (l1.foldl (crossStopStep (stopCrossPrices e)) e) K S hC hlkF1
      have hfr2 := foldl_crossStopStep_stopFrame (stopCrossPrices e) K l2
        (crossStopStep (stopCrossPrices e)
          (l1.foldl (crossStopStep (stopCrossPrices e)) e) (K, S)) hK2
      have : alookup K (l2.foldl (crossStopStep (stopCrossPrices e))
          (crossStopStep (stopCrossPrices e)
            (l1.foldl (crossStopStep (stopCrossPrices e)) e) (K, S))).active_stop_orders = none :=
        hfr2.2.1.trans (alookup_eq_none.mpr hself.1)
      simp [alookup_eq_none.mp this, hC]
    · have hself := crossStopStep_self_nocross (stopCrossPrices e)
        (l1.foldl (crossStopStep (stopCrossPrices e)) e) K S hC
      have hfr2 := foldl_crossStopStep_stopFrame (stopCrossPrices e) K l2
        (crossStopStep (stopCrossPrices e)
          (l1.foldl (crossStopStep (stopCrossPrices e)) e) (K, S)) hK2
      have hv : alookup K (l2.foldl (crossStopStep (stopCrossPrices e))
          (crossStopStep (stopCrossPrices e)
            (l1.foldl (crossStopStep (stopCrossPrices e)) e) (K, S))).active_stop_orders = some S :=
        hfr2.2.1.trans (by rw [hself]; exact hactF1)
      constructor
      · intro hnotin
        exact absurd (mem_akeys_of_alookup hv) (fun h => hnotin h)
      · intro hCC
        exact absurd hCC hC
  refine ⟨?_, ?_, ?_⟩
  · intro hL
    rw [hiff, hpr]
    constructor
    · intro h1
      exact Or.inl ⟨hL, h1⟩
    · intro h
      rcases h with ⟨_, h1⟩ | ⟨hS, _⟩
      · exact h1
      · rw [hL] at hS
        cases hS
  · intro hS
    rw [hiff, hpr]
    constructor
    · intro h1
      exact Or.inr ⟨hS, h1⟩
    · intro h
      rcases h with ⟨hL, _⟩ | ⟨_, h1⟩
      · rw [hS] at hL
        cases hL
      · exact h1
  · intro _ hfill
    have hC := hiff.mp hfill
    have hself := crossStopStep_self_cross (stopCrossPrices e)
      (l1.foldl (crossStopStep (stopCrossPrices e)) e) K S hC hlkF1
    have hfr2 := foldl_crossStopStep_stopFrame (stopCrossPrices e) K l2
      (crossStopStep (stopCrossPrices e)
        (l1.foldl (crossStopStep (stopCrossPrices e)) e) (K, S)) hK2
    refine ⟨(l1.foldl (crossStopStep (stopCrossPrices e)) e).limit_order_count + 1,
      ?_, ?_, ?_, ?_⟩
    · rw [hunfold]
      intro hin
      rw [hfr2.2.2.2.2.2.2, hself.2.2.2.2.2.1, hfr1.2.2.2.2.2.2] at hin
      have hb := hact _ hin
      have hmono : e.limit_order_count ≤
          (l1.foldl (crossStopStep (stopCrossPrices e)) e).limit_order_count :=
        hfr1.2.2.2.2.1
      omega
    · refine ⟨{ symbol := (l1.foldl (crossStopStep (stopCrossPrices e)) e).symbol,
                exchange := (l1.foldl (crossStopStep (stopCrossPrices e)) e).exchange,
                orderid := (l1.foldl (crossStopStep (stopCrossPrices e)) e).limit_order_count + 1,
                direction := S.direction, offset := S.offset,
                price := S.price, volume := S.volume, traded := S.volume,
                status := Status.ALLTRADED,
                datetime := (l1.foldl (crossStopStep (stopCrossPrices e)) e).datetime },
        ?_, rfl, rfl, rfl, rfl, rfl, rfl, rfl⟩
      rw [hunfold]
      have hle : (l1.foldl (crossStopStep (stopCrossPrices e)) e).limit_order_count + 1 ≤
          (crossStopStep (stopCrossPrices e)
            (l1.foldl (crossStopStep (stopCrossPrices e)) e) (K, S)).limit_order_count := by
        rw [hself.2.2.2.1]
      exact (hfr2.2.2.2.2.2.1 _ hle).trans hself.2.2.2.2.1
    · rw [hunfold]
      exact hfr2.1.trans hself.2.1
    · have htc1 : e.trade_count ≤
          (l1.foldl (crossStopStep (stopCrossPrices e)) e).trade_count :=
        hfr1.2.2.1
      have hmemT := hfr2.2.2.2.1 _ hself.2.2.2.2.2.2 (by rw [hself.2.2.1])
      refine ⟨{ symbol := (l1.foldl (crossStopStep (stopCrossPrices e)) e).symbol,
                exchange := (l1.foldl (crossStopStep (stopCrossPrices e)) e).exchange,
                orderid := (l1.foldl (crossStopStep (stopCrossPrices e)) e).limit_order_count + 1,
                tradeid := (l1.foldl (crossStopStep (stopCrossPrices e)) e).trade_count + 1,
                direction := S.direction, offset := S.offset,
                price := if S.direction = Direction.LONG then max S.price (stopCrossPrices e).long_best_price else min S.price (stopCrossPrices e).short_best_price,
                volume := S.volume,
                datetime := (l1.foldl (crossStopStep (stopCrossPrices e)) e).datetime },
        ?_, ?_, rfl, rfl, rfl, ?_⟩
      · rw [hunfold]
        exact mem_avalues.mpr ⟨_, hmemT⟩
      · intro hold
        have hb := htrv _ hold
        simp only at hb
        omega
      · simp only [hpr]

/-- Witness for C4 on `engStopWit`: the LONG stop at 107 triggers on
`barX` (high 112) and leaves the active stop map. -/
theorem cross_stop_order_bar_spec_witness :
    (1, stopWit) ∈ engStopWit.active_stop_orders ∧
    1 ∉ akeys (cross_stop_order engStopWit).active_stop_orders :=
  ⟨by decide,
   ((cross_stop_order_bar_spec engStopWit 1 stopWit rfl (by decide)
       (by decide) (by decide) (by decide) (by decide)).1 rfl).mp (by decide)⟩

/-- Witness for C2 on `"a.b.LOCAL"` (last-dot split) and `"a.b.L"`
(first-dot split). -/
theorem vt_symbol_split_witness :
    extract_vt_symbol (String.mk (['a', '.', 'b'] ++ '.' :: ['L', 'O', 'C', 'A', 'L'])) =
      (Exchange.fromStr (String.mk ['L', 'O', 'C', 'A', 'L'])).map
        (fun ex => (String.mk ['a', '.', 'b'], ex)) ∧
    set_parameters_parse (String.mk (['a'] ++ '.' :: ['b', '.', 'L'])) =
      (Exchange.fromStr
          (String.mk (List.takeWhile (fun c => !(c = '.' : Bool)) ['b', '.', 'L']))).map
        (fun ex => (String.mk ['a'], ex)) :=
  ⟨vt_symbol_split.1 ['a', '.', 'b'] ['L', 'O', 'C', 'A', 'L'] (by decide),
   vt_symbol_split.2 ['a'] ['b', '.', 'L'] (by decide)⟩

end Vnrs
